import Mathlib

/-!
Verification of the bitcoin-balance repository: a shallow embedding of its
balance storage, write-back proxy cache, block primitives and balance
processor, together with proofs of the specified properties.

Python dictionaries (`dict`, `collections.OrderedDict`,
`collections.defaultdict`) are embedded as association lists in insertion
order: the head is the oldest entry.  Assignment to an existing key keeps
the entry in place; assignment to a fresh key appends at the tail, exactly
as in CPython.  `OrderedDict.popitem(last=False)` drops the head and
`move_to_end` reinserts an entry at the tail.
-/

namespace BitBalance

/-- Addresses are strings, as in the source. -/
abbrev Addr := String

namespace AMap

/-- First-match association lookup, mirroring Python `d[k]` / `k in d`. -/
def lk {β : Type} : List (Addr × β) → Addr → Option β
  | [], _ => none
  | (k, v) :: t, a => if k = a then some v else lk t a

/-- Lookup with default, mirroring Python `d.get(k, default)`. -/
def lkD {β : Type} (m : List (Addr × β)) (a : Addr) (d : β) : β :=
  (lk m a).getD d

/-- The keys of an association list, in order. -/
def keys {β : Type} (m : List (Addr × β)) : List Addr :=
  m.map Prod.fst

/-- Well-formedness of an embedded dict: its keys are distinct. -/
abbrev NK {β : Type} (m : List (Addr × β)) : Prop :=
  (keys m).Nodup

/-- Python `d[k] = v`: replace in place when the key exists, else append. -/
def setk {β : Type} : List (Addr × β) → Addr → β → List (Addr × β)
  | [], a, v => [(a, v)]
  | (k, w) :: t, a, v => if k = a then (k, v) :: t else (k, w) :: setk t a v

/-- Python `d.pop(k, None)` / `del d[k]`: drop the first entry with the key. -/
def delk {β : Type} : List (Addr × β) → Addr → List (Addr × β)
  | [], _ => []
  | (k, w) :: t, a => if k = a then t else (k, w) :: delk t a

/-- Python `OrderedDict.move_to_end(k)` (the no-op branch stands for the
unreachable `KeyError` case: the source only moves keys it just found). -/
def moveToEnd {β : Type} (m : List (Addr × β)) (a : Addr) : List (Addr × β) :=
  match lk m a with
  | none => m
  | some v => delk m a ++ [(a, v)]

/-- `defaultdict(int)` accumulation followed by zero-pruning:
`d[a] += x; if d[a] == 0: d.pop(a)`. -/
def bump (m : List (Addr × Int)) (a : Addr) (d : Int) : List (Addr × Int) :=
  if lkD m a 0 + d = 0 then delk m a else setk m a (lkD m a 0 + d)

/-- Signed sum of the contributions a list of (address, delta) pairs makes
to one address. -/
def sumFor : List (Addr × Int) → Addr → Int
  | [], _ => 0
  | p :: t, a => (if p.1 = a then p.2 else 0) + sumFor t a

end AMap

open AMap

/-- In-memory balance storage (`storage.py`, class `MemoryBalanceStorage`):
the `_balance` dict and the `_height` tip (initially -1).  Its
`threading.Lock` only serializes access and carries no functional
content. -/
structure MemoryBalanceStorage where
  balance : List (Addr × Int)
  height : Int
deriving DecidableEq

namespace MemoryBalanceStorage

/-- `MemoryBalanceStorage()` without a forced initial height. -/
def init : MemoryBalanceStorage := ⟨[], -1⟩

/-- `get(address, default)`: with `default=None` a missing address raises
`KeyError` (the `error` result); otherwise `dict.get(address, default)`. -/
def get (st : MemoryBalanceStorage) (a : Addr) (default : Option Int) :
    Except Unit Int :=
  match default with
  | none =>
    match lk st.balance a with
    | some v => Except.ok v
    | none => Except.error ()
  | some d => Except.ok (lkD st.balance a d)

/-- `get_bulk(address)`: one pair per requested address present in the
store, in request order; absent addresses are skipped. -/
def get_bulk (st : MemoryBalanceStorage) (address : List Addr) :
    List (Addr × Int) :=
  address.filterMap (fun a => (lk st.balance a).map (fun v => (a, v)))

/-- `update(insert, update, delete, height)`: `dict.update` with the insert
and update maps (overwriting existing keys in place, appending new ones),
`dict.pop(addr, None)` for every deleted address, then the height is
overwritten.  All of it happens under the instance lock. -/
def update (st : MemoryBalanceStorage) (insert upd : List (Addr × Int))
    (delete : List Addr) (height : Int) : MemoryBalanceStorage :=
  { balance :=
      delete.foldl (fun m x => delk m x)
        (upd.foldl (fun m p => setk m p.1 p.2)
          (insert.foldl (fun m p => setk m p.1 p.2) st.balance)),
    height := height }

end MemoryBalanceStorage

/-- SQLAlchemy-backed balance storage (`storage.py`, class
`SQLBalanceStorage`), embedded over the standard semantics of its external
SQL layer: `rows` is the `address_balance` table (primary key `address`,
rows in insertion order) and `height` the persisted tip held in the single
`block_height` row together with the cached `self._height`.
`bulk_insert_mappings` violates the primary key when an inserted address
already has a row, raising `IntegrityError`; `make_session_scope` then
rolls the whole transaction back, so the failing call leaves the storage
untouched (the model returns an error and no state).  `bulk_update_mappings`
on an absent address matches no row; the `delete` query removes the rows
whose address is listed; the `block_height` row is replaced by `height`.
Insert maps originate from Python dicts, so their keys are distinct. -/
structure SQLBalanceStorage where
  rows : List (Addr × Int)
  height : Int
deriving DecidableEq

namespace SQLBalanceStorage

/-- `get(address, default)`: query by address; found → its balance, else
the default when given, else `KeyError`. -/
def get (st : SQLBalanceStorage) (a : Addr) (default : Option Int) :
    Except Unit Int :=
  match lk st.rows a with
  | some v => Except.ok v
  | none =>
    match default with
    | some d => Except.ok d
    | none => Except.error ()

/-- `get_bulk(address)`: the table rows whose address is in the request,
in table order. -/
def get_bulk (st : SQLBalanceStorage) (address : List Addr) :
    List (Addr × Int) :=
  st.rows.filter (fun p => decide (p.1 ∈ address))

/-- `update(insert, update, delete, height)` as a single transaction. -/
def update (st : SQLBalanceStorage) (insert upd : List (Addr × Int))
    (delete : List Addr) (height : Int) : Except Unit SQLBalanceStorage :=
  if insert.any (fun p => (lk st.rows p.1).isSome) then Except.error ()
  else Except.ok
    { rows :=
        delete.foldl (fun m x => delk m x)
          (upd.foldl (fun m p => if (lk m p.1).isSome then setk m p.1 p.2 else m)
            (st.rows ++ insert)),
      height := height }

end SQLBalanceStorage

/-- The arguments of one `storage.update(...)` call issued by a cache
commit. -/
structure StoreWrite where
  insert : List (Addr × Int)
  update : List (Addr × Int)
  delete : List Addr
  height : Int
deriving DecidableEq

/-- Write-back cache in front of a balance storage (`storage.py`, class
`BalanceProxyCache`), instantiated at the in-memory backend: `cache` is
the `_cache` OrderedDict (head oldest), `maxCache` the `_max_cache` bound,
`updates` the `_updates` defaultdict(int) of pending deltas, `height` the
`_height` mirror and `trimCache` the `_trim_cache` flag.  The hit/miss
counters and the lock carry no functional content and are omitted. -/
structure BalanceProxyCache where
  cache : List (Addr × Int)
  maxCache : Nat
  storage : MemoryBalanceStorage
  height : Int
  updates : List (Addr × Int)
  trimCache : Bool
deriving DecidableEq

namespace BalanceProxyCache

/-- `BalanceProxyCache(balance_storage, max_cache_size)`. -/
def init (storage : MemoryBalanceStorage) (maxCache : Nat) :
    BalanceProxyCache :=
  ⟨[], maxCache, storage, storage.height, [], true⟩

/-- `_load_to_cache(address)`: hit → `move_to_end`; miss → append
`storage.get(address, 0)` (which is `lkD storage.balance address 0`) and
pop the oldest entry when trimming is enabled and the capacity is
exceeded. -/
def loadToCache (st : BalanceProxyCache) (a : Addr) : BalanceProxyCache :=
  match lk st.cache a with
  | some _ => { st with cache := moveToEnd st.cache a }
  | none =>
    let c := st.cache ++ [(a, lkD st.storage.balance a 0)]
    { st with cache :=
        if st.trimCache = true ∧ st.maxCache < c.length then c.tail else c }

/-- `_load_to_cache_bulk(address)`: one pass over the request that moves
hits to the tail and collects the misses in order, a single `get_bulk` for
the misses, appending each loaded (or zero) baseline, then LRU trimming
from the head while enabled.  The `while` loop pops `length - maxCache`
head entries, i.e. `List.drop`. -/
def loadToCacheBulk (st : BalanceProxyCache) (addrs : List Addr) :
    BalanceProxyCache :=
  let acc := addrs.foldl
    (fun (acc : List (Addr × Int) × List Addr) a =>
      match lk acc.1 a with
      | some _ => (moveToEnd acc.1 a, acc.2)
      | none => (acc.1, acc.2 ++ [a]))
    (st.cache, [])
  let stored := st.storage.get_bulk acc.2
  let c2 := acc.2.foldl (fun c a => c ++ [(a, lkD stored a 0)]) acc.1
  { st with cache :=
      if st.trimCache = true then c2.drop (c2.length - st.maxCache) else c2 }

/-- `get(address)`: cached baseline plus pending delta; on a miss, load
into the cache and retry.  The retry hits the entry just loaded, except
when `max_cache_size = 0`, where the entry is evicted at once and the
source recurses forever: that case is the `none` result. -/
def get (st : BalanceProxyCache) (a : Addr) :
    Option (Int × BalanceProxyCache) :=
  match lk st.cache a with
  | some v => some (v + lkD st.updates a 0, st)
  | none =>
    let st' := st.loadToCache a
    match lk st'.cache a with
    | some v => some (v + lkD st'.updates a 0, st')
    | none => none

/-- `update(address, value)`: ignore a zero delta; accumulate into the
pending map and drop the entry when the accumulated delta becomes 0. -/
def update (st : BalanceProxyCache) (a : Addr) (value : Int) :
    BalanceProxyCache :=
  if value = 0 then st
  else { st with updates := bump st.updates a value }

/-- `_commit(height)`.  The `assert height >= self.height` fires before any
mutation (the `error` case); an equal height is a no-op.  Otherwise:
record the height, preload every pending address into the cache, classify
each pending delta against its cached baseline (`self._cache[addr]`, which
the preload guarantees present since the `commit` wrapper disabled
trimming — `lkD _ 0` realizes that present value), merge the pending
deltas into the cache, clear them, issue the single `storage.update`, and
finally trim the cache back to capacity.  The issued `StoreWrite` is
returned alongside the new state. -/
def commitCore (st : BalanceProxyCache) (h : Int) :
    Except Unit (BalanceProxyCache × Option StoreWrite) :=
  if h < st.height then Except.error ()
  else if h = st.height then Except.ok (st, none)
  else
    let st1 : BalanceProxyCache := { st with height := h }
    let st2 := st1.loadToCacheBulk (keys st1.updates)
    let cls := st2.updates.foldl
      (fun (acc : List (Addr × Int) × List (Addr × Int) × List Addr) p =>
        if lkD st2.cache p.1 0 = 0 then
          (acc.1 ++ [(p.1, p.2)], acc.2.1, acc.2.2)
        else if lkD st2.cache p.1 0 + p.2 = 0 then
          (acc.1, acc.2.1, acc.2.2 ++ [p.1])
        else
          (acc.1, acc.2.1 ++ [(p.1, lkD st2.cache p.1 0 + p.2)], acc.2.2))
      ([], [], [])
    let merged := st2.updates.foldl
      (fun c p => setk c p.1 (lkD c p.1 0 + p.2)) st2.cache
    let st3 : BalanceProxyCache :=
      { st2 with cache := merged, updates := [],
                 storage := st2.storage.update cls.1 cls.2.1 cls.2.2 h }
    Except.ok
      ({ st3 with cache := st3.cache.drop (st3.cache.length - st3.maxCache) },
       some ⟨cls.1, cls.2.1, cls.2.2, h⟩)

/-- `commit(height)`: disable cache trimming, run `_commit`, re-enable in
the `finally` block.  A failing assert fires before any mutation, so the
error case leaves the state as it was. -/
def commitWithWrite (st : BalanceProxyCache) (h : Int) :
    Except Unit (BalanceProxyCache × Option StoreWrite) :=
  match commitCore { st with trimCache := false } h with
  | Except.ok r => Except.ok ({ r.1 with trimCache := true }, r.2)
  | Except.error e => Except.error e

/-- `commit(height)` with the issued write discarded. -/
def commit (st : BalanceProxyCache) (h : Int) :
    Except Unit BalanceProxyCache :=
  (st.commitWithWrite h).map Prod.fst

/-- Total version of `commit` for the processor model: the failing assert
leaves the state unchanged. -/
def commitState (st : BalanceProxyCache) (h : Int) : BalanceProxyCache :=
  match st.commitWithWrite h with
  | Except.ok r => r.1
  | Except.error _ => st

/-- The insert class of `_commit`'s classification of the pending list `U`
against the cache baseline `C`: zero baseline. -/
def clsInsert (C U : List (Addr × Int)) : List (Addr × Int) :=
  U.filterMap (fun p => if lkD C p.1 0 = 0 then some (p.1, p.2) else none)

/-- The update class: nonzero baseline and nonzero new balance. -/
def clsUpdate (C U : List (Addr × Int)) : List (Addr × Int) :=
  U.filterMap (fun p =>
    if lkD C p.1 0 = 0 then none
    else if lkD C p.1 0 + p.2 = 0 then none
    else some (p.1, lkD C p.1 0 + p.2))

/-- The delete class: nonzero baseline, zero new balance. -/
def clsDelete (C U : List (Addr × Int)) : List Addr :=
  U.filterMap (fun p =>
    if lkD C p.1 0 = 0 then none
    else if lkD C p.1 0 + p.2 = 0 then some p.1
    else none)

end BalanceProxyCache

/-- Transaction output (`primitives.py`, class `TxOut`): transaction hash,
output index, optional address and value.  `addr` is `None` or a string;
`None` and the empty string are falsy in the source's truthiness tests. -/
structure TxOut where
  tx : String
  nout : Nat
  addr : Option Addr
  value : Int
deriving DecidableEq

/-- Normalized block (`primitives.py`, class `Block`): hash, height,
resolved inputs and outputs. -/
structure Block where
  block_hash : String
  height : Int
  vin : List TxOut
  vout : List TxOut
deriving DecidableEq

/-- A `vin.prevout` reference (`COutPoint`): spent transaction hash and
output index. -/
structure Prevout where
  hash : String
  n : Nat
deriving DecidableEq

namespace SrcBalance

/-- `balance.py` record operation tags `OP_RECEIVED` / `OP_SPENT`. -/
inductive OpType
  | received
  | spent
deriving DecidableEq

/-- `TxoRecord = namedtuple('UtxoRecord', ['op_type', 'txo', 'height'])`. -/
structure TxoRecord where
  op_type : OpType
  txo : TxOut
  height : Int
deriving DecidableEq

/-- `balance.py`: `COINBASE_TX = '0'*64` (a string of 64 zero digits —
distinct from the byte sentinel of `primitives.py`, just as Python `str`
and `bytes` values are never equal). -/
def COINBASE_TX : String := String.mk (List.replicate 64 (Char.ofNat 48))

/-- The `continue` guard of the `add_block` output loop, as a keep
predicate: `not vout.addr or vout.value == 0` skips. -/
def keepVout (o : TxOut) : Bool :=
  match o.addr with
  | none => false
  | some a => if a = "" then false else if o.value = 0 then false else true

/-- The `continue` guard of the `add_block` input loop, as a keep
predicate: `not vin.addr or vin.tx == COINBASE_TX` skips. -/
def keepVin (i : TxOut) : Bool :=
  match i.addr with
  | none => false
  | some a => if a = "" then false else if i.tx = COINBASE_TX then false else true

/-- The draft `BalanceProcessor` of `balance.py`: the `_blocks` deque (head
oldest), the never-updated `_address_balance` defaultdict, the
`_address_records` map, the backtrack limit, and the `address_balance`
database table that `_add_record` mutates through its session (an
association list here; `get_or_create` is the conventional
query-or-instantiate helper the module imports, with `balance` defaulting
to 0).  The module as shipped cannot even be imported — `get_or_create`
exists nowhere in `storage.py` — so this follows the text of `balance.py`
itself. -/
structure BalanceProcessor where
  blocks : List Block
  address_balance : List (Addr × Int)
  address_records : List (Addr × List TxoRecord)
  backtrack_limit : Nat
  db : List (Addr × Int)
deriving DecidableEq

/-- `BalanceProcessor(backtrack_limit)` over an empty database. -/
def BalanceProcessor.init (limit : Nat) : BalanceProcessor :=
  ⟨[], [], [], limit, []⟩

/-- `_add_record(address, record)`: append the record to the address's
list, then inside one session scope read-or-create the `AddressBalance`
row (default 0), add or subtract the record's value, and delete (or never
materialize) the row when the new balance is 0.  The session commits when
the scope exits; `assert balance.balance >= 0` runs after it, so a
negative balance leaves the freshly written row behind and raises — the
returned flag. -/
def BalanceProcessor.addRecord (st : BalanceProcessor) (address : Addr)
    (record : TxoRecord) : BalanceProcessor × Bool :=
  let records := setk st.address_records address
      (lkD st.address_records address [] ++ [record])
  let b := lkD st.db address 0
  let created := (lk st.db address).isNone
  let nb := match record.op_type with
    | OpType.received => b + record.txo.value
    | OpType.spent => b - record.txo.value
  let db :=
    if nb = 0 then (if created then st.db else delk st.db address)
    else setk st.db address nb
  ({ st with address_records := records, db := db }, decide (nb < 0))

/-- `_del_record(address, height)`: pop records from the front while the
head's height is ≤ `height`; drop the key when nothing remains. -/
def BalanceProcessor.delRecord (st : BalanceProcessor) (address : Addr)
    (height : Int) : BalanceProcessor :=
  match lk st.address_records address with
  | none => st
  | some records =>
    let records := records.dropWhile (fun r => decide (r.height ≤ height))
    if records.isEmpty then
      { st with address_records := delk st.address_records address }
    else
      { st with address_records := setk st.address_records address records }

/-- `_remove_oldest_block()`: pop the head block and delete, for every
truthy address in its outputs and then its inputs, the records at or below
the block's height.  `popleft` is only reached on a non-empty deque; the
empty case is a formal no-op. -/
def BalanceProcessor.removeOldestBlock (st : BalanceProcessor) :
    BalanceProcessor :=
  match st.blocks with
  | [] => st
  | block :: rest =>
    let st1 : BalanceProcessor := { st with blocks := rest }
    let st2 := block.vout.foldl
      (fun s o => match o.addr with
        | some a => if a = "" then s else s.delRecord a block.height
        | none => s) st1
    block.vin.foldl
      (fun s i => match i.addr with
        | some a => if a = "" then s else s.delRecord a block.height
        | none => s) st2

/-- The output loop of `add_block`: skip guarded outputs, otherwise add a
RECEIVED record; a raised assert aborts the remaining iterations with the
state mutated so far. -/
def BalanceProcessor.processVouts (h : Int) :
    BalanceProcessor → List TxOut → BalanceProcessor × Bool
  | st, [] => (st, false)
  | st, o :: rest =>
    if keepVout o = false then BalanceProcessor.processVouts h st rest
    else
      match o.addr with
      | some a =>
        let r := st.addRecord a ⟨OpType.received, o, h⟩
        if r.2 then (r.1, true)
        else BalanceProcessor.processVouts h r.1 rest
      | none => BalanceProcessor.processVouts h st rest

/-- The input loop of `add_block`: skip guarded inputs, otherwise add a
SPENT record; a raised assert aborts the remaining iterations. -/
def BalanceProcessor.processVins (h : Int) :
    BalanceProcessor → List TxOut → BalanceProcessor × Bool
  | st, [] => (st, false)
  | st, i :: rest =>
    if keepVin i = false then BalanceProcessor.processVins h st rest
    else
      match i.addr with
      | some a =>
        let r := st.addRecord a ⟨OpType.spent, i, h⟩
        if r.2 then (r.1, true)
        else BalanceProcessor.processVins h r.1 rest
      | none => BalanceProcessor.processVins h st rest

/-- `add_block(block)`: confirm the oldest block away when the deque
already exceeds the limit, append the new block, then process outputs and
inputs in order; the flag reports an aborting assert. -/
def BalanceProcessor.add_block (st : BalanceProcessor) (block : Block) :
    BalanceProcessor × Bool :=
  let st1 := if st.backtrack_limit < st.blocks.length
    then st.removeOldestBlock else st
  let st2 : BalanceProcessor := { st1 with blocks := st1.blocks ++ [block] }
  let r := BalanceProcessor.processVouts block.height st2 block.vout
  if r.2 then r else BalanceProcessor.processVins block.height r.1 block.vin

/-- `backtrack()` in the draft is literally `pass`. -/
def BalanceProcessor.backtrack (st : BalanceProcessor) : BalanceProcessor :=
  st

/-- The same block with exactly the elements the `add_block` loops skip
removed: outputs with falsy address or zero value, inputs with falsy
address or the coinbase sentinel hash. -/
def stripNulls (b : Block) : Block :=
  { b with vout := b.vout.filter keepVout, vin := b.vin.filter keepVin }

end SrcBalance

namespace BlockFactory

/-- `primitives.py`: `COINBASE_TX = b'\x00'*32`, rendered as 32 NUL
characters. -/
def COINBASE_TX : String := String.mk (List.replicate 32 (Char.ofNat 0))

/-- `BlockFactory._transaction_inputs(tx)` over an abstract prevout
resolver standing for `TxOutCache.get_txout` (LRU cache plus upstream
RPC): references whose prevout hash is the coinbase sentinel are skipped;
every other reference is resolved and the result appended (the source's
`txout is None` branch only logs and skips). -/
def transactionInputs (resolve : String → Nat → Option TxOut)
    (vin : List Prevout) : List TxOut :=
  vin.foldl
    (fun acc p =>
      if p.hash = COINBASE_TX then acc
      else
        match resolve p.hash p.n with
        | some txout => acc ++ [txout]
        | none => acc)
    []

end BlockFactory

/-- A Python value passed to `is_valid_bitcoin_address`: a string, or any
non-string value. -/
inductive PyValue
  | str (s : String)
  | other
deriving DecidableEq

/-- `address.py`: the recognized base-58 version bytes (testnet pubkey
hash, testnet script hash, mainnet pubkey hash, mainnet script hash). -/
def BITCOIN_VERSION_BYTES : List Nat := [111, 196, 0, 5]

/-- The data of `bitcoin.base58.CBase58Data` that the validator inspects:
the version byte. -/
structure CBase58Data where
  nVersion : Nat
deriving DecidableEq

/-- `is_valid_bitcoin_address(address, testnet=True)` over an abstract
decoder standing for the external `CBase58Data` constructor (`none` models
the constructor raising).  The `try` body asserts, in order: the input is
a `str`, its length lies strictly between 25 and 36, the string decodes,
and the version byte is recognized; any failure is caught by the blanket
`except` and yields `False`.  The `testnet` parameter is accepted and
ignored, as in the source. -/
def is_valid_bitcoin_address (decode : String → Option CBase58Data)
    (address : PyValue) (testnet : Bool) : Bool :=
  match address with
  | PyValue.str s =>
    if 25 < s.length ∧ s.length < 36 then
      match decode s with
      | some d => decide (d.nVersion ∈ BITCOIN_VERSION_BYTES)
      | none => false
    else false
  | PyValue.other => false

namespace SpecModel

/-- Modelled from the spec: the per-block (address, signed delta)
contributions of §4.6 — outputs contribute `+value`, inputs `−value`;
coinbase inputs and outputs without a derivable address are skipped
(§4.6), as are zero-value outputs (§8, "Outputs with value 0 or no
derivable address contribute no delta").  The skip guards mirror the
`add_block` loops of the draft `balance.py`: falsy address, zero output
value, coinbase sentinel hash. -/
def blockDeltas (b : Block) : List (Addr × Int) :=
  b.vout.filterMap (fun o =>
    match o.addr with
    | some a => if a = "" then none
        else if o.value = 0 then none
        else some (a, o.value)
    | none => none)
  ++ b.vin.filterMap (fun i =>
    match i.addr with
    | some a => if a = "" then none
        else if i.tx = SrcBalance.COINBASE_TX then none
        else some (a, -i.value)
    | none => none)

/-- Modelled from the spec: the storage-backed `BalanceProcessor` of §4.6,
which is missing from the source tree — `balance.py` holds an abandoned
draft (it imports a `get_or_create` that exists nowhere, its `backtrack`
is a bare `pass` stub, and its constructor and `get_balance` signatures
match neither `core.py` nor `tests/test_balance.py`, which construct
`BalanceProcessor(storage=...)` and read `height` / `get_balance(addr)` /
`commit()`).  State per §4.6: the `ring` of recent blocks (head oldest),
the `pending_ring_deltas` mirror of the per-address signed sums of the
blocks still in the ring, the write-back `BalanceProxyCache`, and the
backtrack limit `W`. -/
structure BalanceProcessor where
  ring : List Block
  ringDeltas : List (Addr × Int)
  cache : BalanceProxyCache
  backtrackLimit : Nat
deriving DecidableEq

/-- Modelled from the spec: a processor over a storage with an empty ring
and a fresh cache. -/
def BalanceProcessor.init (storage : MemoryBalanceStorage) (maxCache : Nat)
    (backtrackLimit : Nat) : BalanceProcessor :=
  ⟨[], [], BalanceProxyCache.init storage maxCache, backtrackLimit⟩

/-- Modelled from the spec: §4.6 `height` — the tail block's height when
the ring is non-empty, otherwise the cache's tip height. -/
def BalanceProcessor.height (st : BalanceProcessor) : Int :=
  match st.ring.getLast? with
  | some b => b.height
  | none => st.cache.height

/-- Modelled from the spec: §4.6 `add_block` — append the block to the
ring, fold its deltas into `pending_ring_deltas` pruning zeros, and when
the ring exceeds `W` pop the head block, transfer each of its deltas into
the write-back cache via `cache.update`, and remove them from the mirror
(the mirror covers exactly the blocks still in the ring).  The spec's
step-4 opportunistic `cache.commit` is triggered by wall-clock time and a
pending-size threshold; runs of this model carry `commit` as an explicit
operation instead. -/
def BalanceProcessor.add_block (st : BalanceProcessor) (b : Block) :
    BalanceProcessor :=
  let ring1 := st.ring ++ [b]
  let rd1 := (blockDeltas b).foldl (fun m p => bump m p.1 p.2) st.ringDeltas
  if st.backtrackLimit < ring1.length then
    match ring1 with
    | [] => { st with ring := ring1, ringDeltas := rd1 }
    | old :: rest =>
      { st with
        ring := rest,
        ringDeltas := (blockDeltas old).foldl
          (fun m p => bump m p.1 (-p.2)) rd1,
        cache := (blockDeltas old).foldl
          (fun c p => BalanceProxyCache.update c p.1 p.2) st.cache }
  else { st with ring := ring1, ringDeltas := rd1 }

/-- Modelled from the spec: §4.6 `backtrack` — an empty ring fails with
`BacktrackLimitReached`; otherwise pop the tail block and subtract its
deltas from `pending_ring_deltas`, pruning zeros. -/
def BalanceProcessor.backtrack (st : BalanceProcessor) :
    Except Unit BalanceProcessor :=
  match st.ring.getLast? with
  | none => Except.error ()
  | some b =>
    Except.ok { st with
      ring := st.ring.dropLast,
      ringDeltas := (blockDeltas b).foldl
        (fun m p => bump m p.1 (-p.2)) st.ringDeltas }

/-- Modelled from the spec: §4.6 `get_balance` —
`cache.get(address) + pending_ring_deltas.get(address, 0)`. -/
def BalanceProcessor.get_balance (st : BalanceProcessor) (a : Addr) :
    Option (Int × BalanceProcessor) :=
  (st.cache.get a).map
    (fun r => (r.1 + lkD st.ringDeltas a 0, { st with cache := r.2 }))

/-- Modelled from the spec: §4.6 `commit` — flush the cache at the current
tip. -/
def BalanceProcessor.commit (st : BalanceProcessor) : BalanceProcessor :=
  { st with cache := st.cache.commitState st.height }

/-- One driver operation on the processor. -/
inductive Op
  | add (b : Block)
  | back
  | commit
deriving DecidableEq

/-- One step of a run; a failing backtrack leaves the state unchanged. -/
def BalanceProcessor.step (st : BalanceProcessor) : Op → BalanceProcessor
  | Op.add b => st.add_block b
  | Op.back =>
    match st.backtrack with
    | Except.ok st' => st'
    | Except.error _ => st
  | Op.commit => st.commit

/-- A run of driver operations. -/
def BalanceProcessor.run (st : BalanceProcessor) (ops : List Op) :
    BalanceProcessor :=
  ops.foldl BalanceProcessor.step st

/-- The summed delta an address receives from the blocks in the ring. -/
def ringSum (st : BalanceProcessor) (a : Addr) : Int :=
  (st.ring.map (fun b => sumFor (blockDeltas b) a)).sum

/-- The well-formedness invariant of the spec-modelled processor: cached
baselines agree with the store, all embedded dicts have distinct keys,
`pending_ring_deltas` mirrors the ring, the cache holds at least one slot,
and trimming is enabled outside commits. -/
structure Inv (st : BalanceProcessor) : Prop where
  cohC : ∀ p ∈ st.cache.cache, p.2 = lkD st.cache.storage.balance p.1 0
  nkC : NK st.cache.cache
  nkU : NK st.cache.updates
  nkS : NK st.cache.storage.balance
  nkR : NK st.ringDeltas
  mirror : ∀ a, lkD st.ringDeltas a 0 = ringSum st a
  maxPos : 1 ≤ st.cache.maxCache
  trimOn : st.cache.trimCache = true

end SpecModel

/-- Scenario S1's block: height 100, a single output
`(tx=T1, vout=1, addr=A, value=133)`. -/
def s1Block : Block := ⟨"B1", 100, [], [⟨"T1", 1, some "A", 133⟩]⟩

-- ===== DEFINITIONS CONTINUE ABOVE; THEOREMS BELOW =====

namespace AMap

theorem keys_cons {β : Type} (k : Addr) (v : β) (t : List (Addr × β)) :
    keys ((k, v) :: t) = k :: keys t := rfl

theorem NK_cons {β : Type} {k : Addr} {v : β} {t : List (Addr × β)} :
    NK ((k, v) :: t) ↔ k ∉ keys t ∧ NK t := by
  unfold NK
  rw [keys_cons, List.nodup_cons]

theorem mem_keys {β : Type} {m : List (Addr × β)} {a : Addr} :
    a ∈ keys m ↔ ∃ v, (a, v) ∈ m := by
  unfold keys
  rw [List.mem_map]
  constructor
  · rintro ⟨⟨x, y⟩, hp, rfl⟩
    exact ⟨y, hp⟩
  · rintro ⟨v, hv⟩
    exact ⟨(a, v), hv, rfl⟩

theorem lk_eq_none {β : Type} {m : List (Addr × β)} {a : Addr} :
    lk m a = none ↔ a ∉ keys m := by
  induction m with
  | nil => simp [lk, keys]
  | cons p t ih =>
    obtain ⟨k, v⟩ := p
    simp only [lk]
    rw [keys_cons]
    by_cases hk : k = a
    · subst hk
      simp
    · rw [if_neg hk, ih, List.mem_cons]
      constructor
      · intro h hc
        rcases hc with hc | hc
        · exact hk hc.symm
        · exact h hc
      · intro h hc
        exact h (Or.inr hc)

theorem lk_isSome_iff {β : Type} {m : List (Addr × β)} {a : Addr} :
    (lk m a).isSome ↔ a ∈ keys m := by
  rw [Option.isSome_iff_ne_none]
  constructor
  · intro h
    by_contra hmem
    exact h (lk_eq_none.mpr hmem)
  · intro h hnone
    exact (lk_eq_none.mp hnone) h

theorem lk_some_mem {β : Type} {m : List (Addr × β)} {a : Addr} {v : β}
    (h : lk m a = some v) : (a, v) ∈ m := by
  induction m with
  | nil => simp [lk] at h
  | cons p t ih =>
    obtain ⟨k, w⟩ := p
    simp only [lk] at h
    by_cases hk : k = a
    · rw [if_pos hk] at h
      subst hk
      injection h with h
      subst h
      exact List.mem_cons_self _ _
    · rw [if_neg hk] at h
      exact List.mem_cons_of_mem _ (ih h)

theorem mem_keys_of_lk_some {β : Type} {m : List (Addr × β)} {a : Addr} {v : β}
    (h : lk m a = some v) : a ∈ keys m := by
  rw [← lk_isSome_iff, h]
  rfl

theorem mem_lk {β : Type} {m : List (Addr × β)} {p : Addr × β}
    (hm : NK m) (hp : p ∈ m) : lk m p.1 = some p.2 := by
  induction m with
  | nil => cases hp
  | cons q t ih =>
    obtain ⟨k, w⟩ := q
    rw [NK_cons] at hm
    rcases List.mem_cons.mp hp with h | h
    · rw [h]
      simp [lk]
    · have hk : ¬ k = p.1 := by
        intro hkp
        apply hm.1
        rw [mem_keys]
        refine ⟨p.2, ?_⟩
        rw [hkp, Prod.mk.eta]
        exact h
      simp only [lk]
      rw [if_neg hk]
      exact ih hm.2 h

theorem lk_append {β : Type} (l m : List (Addr × β)) (a : Addr) :
    lk (l ++ m) a = match lk l a with
      | some v => some v
      | none => lk m a := by
  induction l with
  | nil => simp [lk]
  | cons p t ih =>
    obtain ⟨k, v⟩ := p
    simp only [List.cons_append, lk, List.append_eq]
    by_cases hk : k = a
    · rw [if_pos hk, if_pos hk]
    · rw [if_neg hk, if_neg hk, ih]

theorem lk_setk_self {β : Type} (m : List (Addr × β)) (a : Addr) (v : β) :
    lk (setk m a v) a = some v := by
  induction m with
  | nil =>
    simp [setk, lk]
  | cons p t ih =>
    obtain ⟨k, w⟩ := p
    simp only [setk]
    by_cases hk : k = a
    · rw [if_pos hk]
      simp only [lk]
      rw [if_pos hk]
    · rw [if_neg hk]
      simp only [lk]
      rw [if_neg hk]
      exact ih

theorem lk_setk_ne {β : Type} (m : List (Addr × β)) (a b : Addr) (v : β)
    (h : b ≠ a) : lk (setk m a v) b = lk m b := by
  induction m with
  | nil =>
    simp only [setk, lk]
    rw [if_neg (fun hh => h hh.symm)]
  | cons p t ih =>
    obtain ⟨k, w⟩ := p
    simp only [setk]
    by_cases hk : k = a
    · rw [if_pos hk]
      have hkb : ¬ k = b := by
        rw [hk]
        exact fun hh => h hh.symm
      simp only [lk]
      rw [if_neg hkb, if_neg hkb]
    · rw [if_neg hk]
      simp only [lk]
      by_cases hkb : k = b
      · rw [if_pos hkb, if_pos hkb]
      · rw [if_neg hkb, if_neg hkb]
        exact ih

theorem mem_setk {β : Type} {m : List (Addr × β)} {a : Addr} {v : β}
    {p : Addr × β} (h : p ∈ setk m a v) : p ∈ m ∨ p = (a, v) := by
  induction m with
  | nil =>
    simp only [setk] at h
    rcases List.mem_singleton.mp h with h
    exact Or.inr h
  | cons q t ih =>
    obtain ⟨k, w⟩ := q
    simp only [setk] at h
    by_cases hk : k = a
    · rw [if_pos hk] at h
      subst hk
      rcases List.mem_cons.mp h with h | h
      · exact Or.inr h
      · exact Or.inl (List.mem_cons_of_mem _ h)
    · rw [if_neg hk] at h
      rcases List.mem_cons.mp h with h | h
      · refine Or.inl ?_
        rw [h]
        exact List.mem_cons_self _ _
      · rcases ih h with hh | hh
        · exact Or.inl (List.mem_cons_of_mem _ hh)
        · exact Or.inr hh

theorem mem_keys_setk {β : Type} {m : List (Addr × β)} {a x : Addr} {v : β}
    (h : x ∈ keys (setk m a v)) : x ∈ keys m ∨ x = a := by
  rw [mem_keys] at h
  obtain ⟨v', hv'⟩ := h
  rcases mem_setk hv' with hm | hm
  · exact Or.inl (mem_keys.mpr ⟨v', hm⟩)
  · exact Or.inr (congrArg Prod.fst hm)

theorem NK_setk {β : Type} {m : List (Addr × β)} {a : Addr} {v : β}
    (h : NK m) : NK (setk m a v) := by
  induction m with
  | nil => simp [setk, NK, keys]
  | cons p t ih =>
    obtain ⟨k, w⟩ := p
    rw [NK_cons] at h
    simp only [setk]
    by_cases hk : k = a
    · rw [if_pos hk]
      exact NK_cons.mpr h
    · rw [if_neg hk]
      rw [NK_cons]
      refine ⟨?_, ih h.2⟩
      intro hmem
      rcases mem_keys_setk hmem with hh | hh
      · exact h.1 hh
      · exact hk hh

theorem delk_sublist {β : Type} (m : List (Addr × β)) (a : Addr) :
    (delk m a).Sublist m := by
  induction m with
  | nil => simp [delk]
  | cons p t ih =>
    obtain ⟨k, w⟩ := p
    simp only [delk]
    by_cases hk : k = a
    · rw [if_pos hk]
      exact List.sublist_cons_self _ _
    · rw [if_neg hk]
      exact List.Sublist.cons₂ _ ih

theorem mem_delk {β : Type} {m : List (Addr × β)} {a : Addr} {p : Addr × β}
    (h : p ∈ delk m a) : p ∈ m :=
  (delk_sublist m a).subset h

theorem keys_delk_sublist {β : Type} (m : List (Addr × β)) (a : Addr) :
    (keys (delk m a)).Sublist (keys m) :=
  (delk_sublist m a).map Prod.fst

theorem NK_delk {β : Type} {m : List (Addr × β)} {a : Addr}
    (h : NK m) : NK (delk m a) :=
  List.Nodup.sublist (keys_delk_sublist m a) h

theorem lk_delk_ne {β : Type} (m : List (Addr × β)) (a b : Addr)
    (h : b ≠ a) : lk (delk m a) b = lk m b := by
  induction m with
  | nil => simp [delk]
  | cons p t ih =>
    obtain ⟨k, w⟩ := p
    simp only [delk]
    by_cases hk : k = a
    · rw [if_pos hk]
      have hkb : ¬ k = b := by
        rw [hk]
        exact fun hh => h hh.symm
      show lk t b = lk ((k, w) :: t) b
      simp only [lk]
      rw [if_neg hkb]
    · rw [if_neg hk]
      simp only [lk]
      by_cases hkb : k = b
      · rw [if_pos hkb, if_pos hkb]
      · rw [if_neg hkb, if_neg hkb]
        exact ih

theorem lk_delk_self {β : Type} {m : List (Addr × β)} {a : Addr}
    (h : NK m) : lk (delk m a) a = none := by
  induction m with
  | nil => simp [delk, lk]
  | cons p t ih =>
    obtain ⟨k, w⟩ := p
    rw [NK_cons] at h
    simp only [delk]
    by_cases hk : k = a
    · rw [if_pos hk]
      subst hk
      rw [lk_eq_none]
      exact h.1
    · rw [if_neg hk]
      simp only [lk]
      rw [if_neg hk]
      exact ih h.2

theorem lk_delk_none {β : Type} {m : List (Addr × β)} {a b : Addr}
    (h : lk m b = none) : lk (delk m a) b = none := by
  rw [lk_eq_none] at h ⊢
  intro hmem
  exact h ((keys_delk_sublist m a).subset hmem)

theorem lk_moveToEnd {β : Type} {m : List (Addr × β)} {a : Addr}
    (h : NK m) (x : Addr) : lk (moveToEnd m a) x = lk m x := by
  unfold moveToEnd
  cases hl : lk m a with
  | none => rfl
  | some v =>
    rw [lk_append]
    by_cases hx : x = a
    · subst hx
      rw [lk_delk_self h]
      simp [lk, hl]
    · rw [lk_delk_ne m a x hx]
      cases hlx : lk m x with
      | none =>
        simp only [lk]
        rw [if_neg (fun hh : a = x => hx hh.symm)]
      | some w => simp

theorem mem_moveToEnd {β : Type} {m : List (Addr × β)} {a : Addr} {p : Addr × β}
    (h : p ∈ moveToEnd m a) : p ∈ m := by
  unfold moveToEnd at h
  cases hl : lk m a with
  | none =>
    rw [hl] at h
    exact h
  | some v =>
    rw [hl] at h
    rcases List.mem_append.mp h with h | h
    · exact mem_delk h
    · rw [List.mem_singleton.mp h]
      exact lk_some_mem hl

theorem NK_moveToEnd {β : Type} {m : List (Addr × β)} {a : Addr}
    (h : NK m) : NK (moveToEnd m a) := by
  unfold moveToEnd
  cases hl : lk m a with
  | none => exact h
  | some v =>
    unfold NK
    have hkeys : keys (delk m a ++ [(a, v)]) = keys (delk m a) ++ [a] := by
      unfold keys
      rw [List.map_append]
      rfl
    rw [hkeys, List.nodup_append]
    refine ⟨NK_delk h, List.nodup_singleton a, ?_⟩
    intro x hx hx2
    rw [List.mem_singleton] at hx2
    subst hx2
    have h0 : lk (delk m x) x = none := lk_delk_self h
    rw [lk_eq_none] at h0
    exact h0 hx

theorem lkD_bump {m : List (Addr × Int)} {a : Addr} {d : Int}
    (h : NK m) (x : Addr) :
    lkD (bump m a d) x 0 = lkD m x 0 + (if x = a then d else 0) := by
  unfold bump
  by_cases hz : lkD m a 0 + d = 0
  · rw [if_pos hz]
    by_cases hx : x = a
    · subst hx
      rw [if_pos rfl]
      unfold lkD at hz ⊢
      rw [lk_delk_self h]
      simp only [Option.getD_none]
      omega
    · rw [if_neg hx]
      unfold lkD
      rw [lk_delk_ne m a x hx]
      omega
  · rw [if_neg hz]
    by_cases hx : x = a
    · subst hx
      rw [if_pos rfl]
      unfold lkD
      rw [lk_setk_self]
      simp only [Option.getD_some]
    · rw [if_neg hx]
      unfold lkD
      rw [lk_setk_ne m a x _ hx]
      omega

theorem NK_bump {m : List (Addr × Int)} {a : Addr} {d : Int}
    (h : NK m) : NK (bump m a d) := by
  unfold bump
  by_cases hz : lkD m a 0 + d = 0
  · rw [if_pos hz]
    exact NK_delk h
  · rw [if_neg hz]
    exact NK_setk h

theorem mem_bump {m : List (Addr × Int)} {a : Addr} {d : Int} {p : Addr × Int}
    (h : p ∈ bump m a d) : p ∈ m ∨ p = (a, lkD m a 0 + d) := by
  unfold bump at h
  by_cases hz : lkD m a 0 + d = 0
  · rw [if_pos hz] at h
    exact Or.inl (mem_delk h)
  · rw [if_neg hz] at h
    exact mem_setk h

theorem sumFor_append (l m : List (Addr × Int)) (a : Addr) :
    sumFor (l ++ m) a = sumFor l a + sumFor m a := by
  induction l with
  | nil => simp [sumFor]
  | cons p t ih =>
    simp only [List.cons_append, sumFor, List.append_eq]
    rw [ih]
    ring

/-- Folding `bump` over a contribution list adds, at every address, the sum
of that address's contributions. -/
theorem lkD_bumpFold {m : List (Addr × Int)}
    (ds : List (Addr × Int)) (h : NK m) (x : Addr) :
    lkD (ds.foldl (fun acc p => bump acc p.1 p.2) m) x 0
      = lkD m x 0 + sumFor ds x := by
  induction ds generalizing m with
  | nil => simp [sumFor]
  | cons p t ih =>
    simp only [List.foldl_cons, sumFor]
    rw [ih (NK_bump h), lkD_bump h x]
    by_cases hx : x = p.1
    · rw [if_pos hx, if_pos hx.symm]
      ring
    · rw [if_neg hx, if_neg (fun hh => hx hh.symm)]
      ring

theorem NK_bumpFold {m : List (Addr × Int)}
    (ds : List (Addr × Int)) (h : NK m) :
    NK (ds.foldl (fun acc p => bump acc p.1 p.2) m) := by
  induction ds generalizing m with
  | nil => exact h
  | cons p t ih => exact ih (NK_bump h)

theorem mem_bumpFold {m : List (Addr × Int)}
    {ds : List (Addr × Int)} {p : Addr × Int}
    (h : p ∈ ds.foldl (fun acc q => bump acc q.1 q.2) m) :
    p ∈ m ∨ p.1 ∈ keys ds := by
  induction ds generalizing m with
  | nil => exact Or.inl h
  | cons q t ih =>
    simp only [List.foldl_cons] at h
    rcases ih h with hh | hh
    · rcases mem_bump hh with hm | hm
      · exact Or.inl hm
      · refine Or.inr ?_
        rw [hm]
        rw [show keys (q :: t) = q.1 :: keys t from rfl, List.mem_cons]
        exact Or.inl rfl
    · refine Or.inr ?_
      rw [show keys (q :: t) = q.1 :: keys t from rfl, List.mem_cons]
      exact Or.inr hh

/-- Setting every pair of a dict in turn: other keys are untouched. -/
theorem lk_setkFold_not_mem {β : Type} {ins : List (Addr × β)}
    {m : List (Addr × β)} {a : Addr} (h : a ∉ keys ins) :
    lk (ins.foldl (fun acc p => setk acc p.1 p.2) m) a = lk m a := by
  induction ins generalizing m with
  | nil => rfl
  | cons q t ih =>
    obtain ⟨k, w⟩ := q
    rw [keys_cons, List.mem_cons] at h
    push_neg at h
    simp only [List.foldl_cons]
    rw [ih h.2, lk_setk_ne]
    exact fun hh => h.1 hh

/-- Setting every pair of a dict in turn: a key of the written dict reads
back its (unique) written value. -/
theorem lk_setkFold_mem {β : Type} {ins : List (Addr × β)}
    (hins : NK ins) {m : List (Addr × β)} {a : Addr} {v : β}
    (hmem : (a, v) ∈ ins) :
    lk (ins.foldl (fun acc p => setk acc p.1 p.2) m) a = some v := by
  induction ins generalizing m with
  | nil => cases hmem
  | cons q t ih =>
    obtain ⟨k, w⟩ := q
    rw [NK_cons] at hins
    simp only [List.foldl_cons]
    rcases List.mem_cons.mp hmem with h | h
    · injection h with h1 h2
      subst h1
      subst h2
      rw [lk_setkFold_not_mem hins.1, lk_setk_self]
    · exact ih hins.2 h

theorem NK_setkFold {β : Type} {ins : List (Addr × β)}
    {m : List (Addr × β)} (h : NK m) :
    NK (ins.foldl (fun acc p => setk acc p.1 p.2) m) := by
  induction ins generalizing m with
  | nil => exact h
  | cons q t ih => exact ih (NK_setk h)

theorem lk_delkFold_none {m : List (Addr × Int)} {del : List Addr} {a : Addr}
    (h : lk m a = none) :
    lk (del.foldl (fun acc x => delk acc x) m) a = none := by
  induction del generalizing m with
  | nil => exact h
  | cons d t ih => exact ih (lk_delk_none h)

theorem lk_delkFold_mem {m : List (Addr × Int)} {del : List Addr} {a : Addr}
    (hm : NK m) (h : a ∈ del) :
    lk (del.foldl (fun acc x => delk acc x) m) a = none := by
  induction del generalizing m with
  | nil => cases h
  | cons d t ih =>
    simp only [List.foldl_cons]
    rcases List.mem_cons.mp h with h | h
    · subst h
      exact lk_delkFold_none (lk_delk_self hm)
    · exact ih (NK_delk hm) h

theorem lk_delkFold_not_mem {m : List (Addr × Int)} {del : List Addr} {a : Addr}
    (h : a ∉ del) :
    lk (del.foldl (fun acc x => delk acc x) m) a = lk m a := by
  induction del generalizing m with
  | nil => rfl
  | cons d t ih =>
    rw [List.mem_cons] at h
    push_neg at h
    simp only [List.foldl_cons]
    rw [ih h.2, lk_delk_ne]
    exact h.1

theorem NK_delkFold {m : List (Addr × Int)} {del : List Addr}
    (h : NK m) : NK (del.foldl (fun acc x => delk acc x) m) := by
  induction del generalizing m with
  | nil => exact h
  | cons d t ih => exact ih (NK_delk h)

end AMap

-- ===== CLAIM THEOREMS MARKER =====

theorem MemoryBalanceStorage.get_with_default (st : MemoryBalanceStorage)
    (a : Addr) (d : Int) :
    st.get a (some d) = Except.ok (lkD st.balance a d) := rfl

namespace AMap

theorem keys_append {β : Type} (l m : List (Addr × β)) :
    keys (l ++ m) = keys l ++ keys m := by
  unfold keys
  rw [List.map_append]

theorem NK_append_single {β : Type} {l : List (Addr × β)} {a : Addr} {v : β}
    (h : NK l) (ha : a ∉ keys l) : NK (l ++ [(a, v)]) := by
  unfold NK
  rw [keys_append, List.nodup_append]
  refine ⟨h, ?_, ?_⟩
  · show ([a] : List Addr).Nodup
    exact List.nodup_singleton a
  intro x hx hx2
  rw [show keys [(a, v)] = [a] from rfl, List.mem_singleton] at hx2
  subst hx2
  exact ha hx

theorem lkD_of_some {β : Type} {m : List (Addr × β)} {a : Addr} {v : β}
    (d : β) (h : lk m a = some v) : lkD m a d = v := by
  unfold lkD
  rw [h]
  rfl

theorem lkD_of_none {β : Type} {m : List (Addr × β)} {a : Addr}
    (d : β) (h : lk m a = none) : lkD m a d = d := by
  unfold lkD
  rw [h]
  rfl

theorem lkD_congr {β : Type} {m m' : List (Addr × β)} {a a' : Addr}
    (d : β) (h : lk m a = lk m' a') : lkD m a d = lkD m' a' d := by
  unfold lkD
  rw [h]

theorem lk_append_single_self {β : Type} {l : List (Addr × β)} {a : Addr}
    {v : β} (ha : a ∉ keys l) : lk (l ++ [(a, v)]) a = some v := by
  rw [lk_append, lk_eq_none.mpr ha]
  show lk [(a, v)] a = some v
  simp [lk]

theorem lk_append_single_ne {β : Type} (l : List (Addr × β)) (a x : Addr)
    (v : β) (hx : x ≠ a) : lk (l ++ [(a, v)]) x = lk l x := by
  rw [lk_append]
  cases hl : lk l x with
  | some w => simp
  | none =>
    simp only [lk]
    rw [if_neg (fun hh : a = x => hx hh.symm)]

end AMap

theorem MemoryBalanceStorage.get_bulk_mem (st : MemoryBalanceStorage)
    {l : List Addr} {p : Addr × Int} (hp : p ∈ st.get_bulk l) :
    p.1 ∈ l ∧ lk st.balance p.1 = some p.2 := by
  unfold MemoryBalanceStorage.get_bulk at hp
  rw [List.mem_filterMap] at hp
  obtain ⟨a, ha, hfa⟩ := hp
  rw [Option.map_eq_some'] at hfa
  obtain ⟨v, hv, heq⟩ := hfa
  cases heq
  exact ⟨ha, hv⟩

theorem MemoryBalanceStorage.get_bulk_lk_none (st : MemoryBalanceStorage)
    {l : List Addr} {x : Addr} (hx : x ∉ l) :
    lk (st.get_bulk l) x = none := by
  rw [lk_eq_none]
  intro hmem
  rw [mem_keys] at hmem
  obtain ⟨v, hv⟩ := hmem
  exact hx (MemoryBalanceStorage.get_bulk_mem st hv).1

theorem MemoryBalanceStorage.get_bulk_lk (st : MemoryBalanceStorage)
    {l : List Addr} (hnd : l.Nodup) {x : Addr} (hx : x ∈ l) :
    lk (st.get_bulk l) x = lk st.balance x := by
  induction l with
  | nil => cases hx
  | cons a rest ih =>
    rw [List.nodup_cons] at hnd
    unfold MemoryBalanceStorage.get_bulk
    rw [List.filterMap_cons]
    rcases List.mem_cons.mp hx with hxa | hxr
    · subst hxa
      cases hb : lk st.balance x with
      | none =>
        simp only [hb, Option.map_none']
        have hnone : lk (st.get_bulk rest) x = none :=
          MemoryBalanceStorage.get_bulk_lk_none st hnd.1
        exact hnone
      | some v =>
        simp only [hb, Option.map_some']
        simp [lk]
    · have hxa : x ≠ a := fun h => hnd.1 (h ▸ hxr)
      cases hb : lk st.balance a with
      | none =>
        simp only [hb, Option.map_none']
        exact ih hnd.2 hxr
      | some v =>
        simp only [hb, Option.map_some']
        simp only [lk]
        rw [if_neg (fun hh : a = x => hxa hh.symm)]
        exact ih hnd.2 hxr

namespace BalanceProxyCache

theorem loadToCacheBulk_storage (st : BalanceProxyCache) (addrs : List Addr) :
    (st.loadToCacheBulk addrs).storage = st.storage := rfl

theorem loadToCacheBulk_updates (st : BalanceProxyCache) (addrs : List Addr) :
    (st.loadToCacheBulk addrs).updates = st.updates := rfl

theorem loadToCacheBulk_height (st : BalanceProxyCache) (addrs : List Addr) :
    (st.loadToCacheBulk addrs).height = st.height := rfl

theorem loadToCacheBulk_maxCache (st : BalanceProxyCache) (addrs : List Addr) :
    (st.loadToCacheBulk addrs).maxCache = st.maxCache := rfl

theorem loadToCacheBulk_trimCache (st : BalanceProxyCache) (addrs : List Addr) :
    (st.loadToCacheBulk addrs).trimCache = st.trimCache := rfl

/-- The first pass of `_load_to_cache_bulk`: lookups are preserved, key
distinctness is preserved, and the collected list is exactly the addresses
in request order that miss the cache. -/
theorem bulkPass_spec (addrs : List Addr) :
    ∀ (c0 : List (Addr × Int)) (acc : List Addr), NK c0 →
      ((∀ x, lk (addrs.foldl
          (fun (acc : List (Addr × Int) × List Addr) a =>
            match lk acc.1 a with
            | some _ => (moveToEnd acc.1 a, acc.2)
            | none => (acc.1, acc.2 ++ [a])) (c0, acc)).1 x = lk c0 x)
      ∧ NK (addrs.foldl
          (fun (acc : List (Addr × Int) × List Addr) a =>
            match lk acc.1 a with
            | some _ => (moveToEnd acc.1 a, acc.2)
            | none => (acc.1, acc.2 ++ [a])) (c0, acc)).1
      ∧ (addrs.foldl
          (fun (acc : List (Addr × Int) × List Addr) a =>
            match lk acc.1 a with
            | some _ => (moveToEnd acc.1 a, acc.2)
            | none => (acc.1, acc.2 ++ [a])) (c0, acc)).2
          = acc ++ addrs.filter (fun a => (lk c0 a).isNone)) := by
  induction addrs with
  | nil =>
    intro c0 acc hnk
    exact ⟨fun x => rfl, hnk, by simp⟩
  | cons a rest ih =>
    intro c0 acc hnk
    simp only [List.foldl_cons]
    cases hl : lk c0 a with
    | some v =>
      have h1 := ih (moveToEnd c0 a) acc (NK_moveToEnd hnk)
      refine ⟨?_, h1.2.1, ?_⟩
      · intro x
        rw [h1.1 x, lk_moveToEnd hnk]
      · rw [h1.2.2, List.filter_cons_of_neg (by simp [hl])]
        congr 1
        apply List.filter_congr
        intro y hy
        rw [lk_moveToEnd hnk]
    | none =>
      have h1 := ih c0 (acc ++ [a]) hnk
      refine ⟨h1.1, h1.2.1, ?_⟩
      rw [h1.2.2, List.filter_cons_of_pos (by rw [hl]; rfl)]
      simp

/-- The loading pass of `_load_to_cache_bulk`: each collected address reads
back its loaded value, other lookups are untouched, and key distinctness
is preserved. -/
theorem appendLoad_spec (S : List (Addr × Int)) (toLoad : List Addr) :
    ∀ (c1 : List (Addr × Int)), NK c1 → toLoad.Nodup →
      (∀ a ∈ toLoad, a ∉ keys c1) →
      ((∀ x ∈ toLoad,
          lk (toLoad.foldl (fun c a => c ++ [(a, lkD S a 0)]) c1) x
            = some (lkD S x 0))
      ∧ (∀ x, x ∉ toLoad →
          lk (toLoad.foldl (fun c a => c ++ [(a, lkD S a 0)]) c1) x = lk c1 x)
      ∧ NK (toLoad.foldl (fun c a => c ++ [(a, lkD S a 0)]) c1)) := by
  induction toLoad with
  | nil =>
    intro c1 hnk _ _
    exact ⟨fun x hx => absurd hx (List.not_mem_nil x), fun x _ => rfl, hnk⟩
  | cons a rest ih =>
    intro c1 hnk hnd hfresh
    rw [List.nodup_cons] at hnd
    simp only [List.foldl_cons]
    have hfresh1 : a ∉ keys c1 := hfresh a (List.mem_cons_self a rest)
    have hnk1 : NK (c1 ++ [(a, lkD S a 0)]) := NK_append_single hnk hfresh1
    have hfresh2 : ∀ y ∈ rest, y ∉ keys (c1 ++ [(a, lkD S a 0)]) := by
      intro y hy hmem
      rw [keys_append] at hmem
      rcases List.mem_append.mp hmem with hm | hm
      · exact hfresh y (List.mem_cons_of_mem a hy) hm
      · rw [show keys [(a, lkD S a 0)] = [a] from rfl,
          List.mem_singleton] at hm
        subst hm
        exact hnd.1 hy
    have h1 := ih (c1 ++ [(a, lkD S a 0)]) hnk1 hnd.2 hfresh2
    refine ⟨?_, ?_, h1.2.2⟩
    · intro x hx
      rcases List.mem_cons.mp hx with hxa | hxr
      · subst hxa
        rw [h1.2.1 x hnd.1, lk_append_single_self hfresh1]
      · exact h1.1 x hxr
    · intro x hx
      rw [List.mem_cons] at hx
      push_neg at hx
      rw [h1.2.1 x hx.2, lk_append_single_ne c1 a x _ hx.1]

/-- `_load_to_cache_bulk` with trimming disabled: requested addresses hit
their cached value, or the stored baseline (default 0) when they missed;
other lookups are untouched; keys stay distinct. -/
theorem loadToCacheBulk_spec (st : BalanceProxyCache) (addrs : List Addr)
    (hnk : NK st.cache) (hnd : addrs.Nodup) (htrim : st.trimCache = false) :
    (∀ x ∈ addrs, lk (st.loadToCacheBulk addrs).cache x
        = some (match lk st.cache x with
                | some v => v
                | none => lkD st.storage.balance x 0))
    ∧ (∀ x, x ∉ addrs →
        lk (st.loadToCacheBulk addrs).cache x = lk st.cache x)
    ∧ NK (st.loadToCacheBulk addrs).cache := by
  unfold loadToCacheBulk
  dsimp only
  rw [htrim, if_neg Bool.false_ne_true]
  have hp := bulkPass_spec addrs st.cache [] hnk
  have htl : (addrs.foldl
      (fun (acc : List (Addr × Int) × List Addr) a =>
        match lk acc.1 a with
        | some _ => (moveToEnd acc.1 a, acc.2)
        | none => (acc.1, acc.2 ++ [a])) (st.cache, [])).2
      = addrs.filter (fun a => (lk st.cache a).isNone) := by
    rw [hp.2.2]
    simp
  have htlnd : (addrs.foldl
      (fun (acc : List (Addr × Int) × List Addr) a =>
        match lk acc.1 a with
        | some _ => (moveToEnd acc.1 a, acc.2)
        | none => (acc.1, acc.2 ++ [a])) (st.cache, [])).2.Nodup := by
    rw [htl]
    exact hnd.filter _
  have hsub : ∀ x, x ∈ (addrs.foldl
      (fun (acc : List (Addr × Int) × List Addr) a =>
        match lk acc.1 a with
        | some _ => (moveToEnd acc.1 a, acc.2)
        | none => (acc.1, acc.2 ++ [a])) (st.cache, [])).2 ↔
      (x ∈ addrs ∧ lk st.cache x = none) := by
    intro x
    rw [htl, List.mem_filter]
    constructor
    · rintro ⟨h1, h2⟩
      rw [Option.isNone_iff_eq_none] at h2
      exact ⟨h1, h2⟩
    · rintro ⟨h1, h2⟩
      exact ⟨h1, by rw [h2]; rfl⟩
  have hfresh : ∀ a ∈ (addrs.foldl
      (fun (acc : List (Addr × Int) × List Addr) a =>
        match lk acc.1 a with
        | some _ => (moveToEnd acc.1 a, acc.2)
        | none => (acc.1, acc.2 ++ [a])) (st.cache, [])).2,
      a ∉ keys (addrs.foldl
      (fun (acc : List (Addr × Int) × List Addr) a =>
        match lk acc.1 a with
        | some _ => (moveToEnd acc.1 a, acc.2)
        | none => (acc.1, acc.2 ++ [a])) (st.cache, [])).1 := by
    intro a ha hmem
    have h2 := ((hsub a).mp ha).2
    have h3 : lk (addrs.foldl
      (fun (acc : List (Addr × Int) × List Addr) a =>
        match lk acc.1 a with
        | some _ => (moveToEnd acc.1 a, acc.2)
        | none => (acc.1, acc.2 ++ [a])) (st.cache, [])).1 a = none := by
      rw [hp.1 a]
      exact h2
    exact (lk_eq_none.mp h3) hmem
  have hap := appendLoad_spec
    (st.storage.get_bulk ((addrs.foldl
      (fun (acc : List (Addr × Int) × List Addr) a =>
        match lk acc.1 a with
        | some _ => (moveToEnd acc.1 a, acc.2)
        | none => (acc.1, acc.2 ++ [a])) (st.cache, [])).2))
    ((addrs.foldl
      (fun (acc : List (Addr × Int) × List Addr) a =>
        match lk acc.1 a with
        | some _ => (moveToEnd acc.1 a, acc.2)
        | none => (acc.1, acc.2 ++ [a])) (st.cache, [])).2)
    ((addrs.foldl
      (fun (acc : List (Addr × Int) × List Addr) a =>
        match lk acc.1 a with
        | some _ => (moveToEnd acc.1 a, acc.2)
        | none => (acc.1, acc.2 ++ [a])) (st.cache, [])).1)
    hp.2.1 htlnd hfresh
  refine ⟨?_, ?_, hap.2.2⟩
  · intro x hx
    cases hl : lk st.cache x with
    | some v =>
      have hnotl : x ∉ (addrs.foldl
        (fun (acc : List (Addr × Int) × List Addr) a =>
          match lk acc.1 a with
          | some _ => (moveToEnd acc.1 a, acc.2)
          | none => (acc.1, acc.2 ++ [a])) (st.cache, [])).2 := by
        intro hmem
        rw [((hsub x).mp hmem).2] at hl
        cases hl
      rw [hap.2.1 x hnotl, hp.1 x, hl]
    | none =>
      have hinl : x ∈ (addrs.foldl
        (fun (acc : List (Addr × Int) × List Addr) a =>
          match lk acc.1 a with
          | some _ => (moveToEnd acc.1 a, acc.2)
          | none => (acc.1, acc.2 ++ [a])) (st.cache, [])).2 :=
        (hsub x).mpr ⟨hx, hl⟩
      rw [hap.1 x hinl]
      congr 1
      rw [lkD, MemoryBalanceStorage.get_bulk_lk st.storage htlnd hinl]
      rfl
  · intro x hx
    have hnotl : x ∉ (addrs.foldl
      (fun (acc : List (Addr × Int) × List Addr) a =>
        match lk acc.1 a with
        | some _ => (moveToEnd acc.1 a, acc.2)
        | none => (acc.1, acc.2 ++ [a])) (st.cache, [])).2 := by
      intro hmem
      exact hx ((hsub x).mp hmem).1
    rw [hap.2.1 x hnotl, hp.1 x]

/-- The classification fold of `_commit` in terms of the three class
lists, for arbitrary accumulators. -/
theorem clsFold_spec (C : List (Addr × Int)) (U : List (Addr × Int)) :
    ∀ (a1 u1 : List (Addr × Int)) (d1 : List Addr),
      U.foldl
        (fun (acc : List (Addr × Int) × List (Addr × Int) × List Addr) p =>
          if lkD C p.1 0 = 0 then
            (acc.1 ++ [(p.1, p.2)], acc.2.1, acc.2.2)
          else if lkD C p.1 0 + p.2 = 0 then
            (acc.1, acc.2.1, acc.2.2 ++ [p.1])
          else
            (acc.1, acc.2.1 ++ [(p.1, lkD C p.1 0 + p.2)], acc.2.2))
        (a1, u1, d1)
      = (a1 ++ clsInsert C U, u1 ++ clsUpdate C U, d1 ++ clsDelete C U) := by
  induction U with
  | nil =>
    intro a1 u1 d1
    simp [clsInsert, clsUpdate, clsDelete]
  | cons p t ih =>
    intro a1 u1 d1
    simp only [List.foldl_cons]
    by_cases h0 : lkD C p.1 0 = 0
    · rw [if_pos h0, ih]
      unfold clsInsert clsUpdate clsDelete
      rw [List.filterMap_cons, List.filterMap_cons, List.filterMap_cons]
      rw [if_pos h0, if_pos h0, if_pos h0]
      simp
    · rw [if_neg h0]
      by_cases h1 : lkD C p.1 0 + p.2 = 0
      · rw [if_pos h1, ih]
        unfold clsInsert clsUpdate clsDelete
        rw [List.filterMap_cons, List.filterMap_cons, List.filterMap_cons]
        rw [if_neg h0, if_neg h0, if_neg h0, if_pos h1, if_pos h1]
        simp
      · rw [if_neg h1, ih]
        unfold clsInsert clsUpdate clsDelete
        rw [List.filterMap_cons, List.filterMap_cons, List.filterMap_cons]
        rw [if_neg h0, if_neg h0, if_neg h0, if_neg h1, if_neg h1]
        simp

theorem keys_clsInsert_sublist (C U : List (Addr × Int)) :
    (keys (clsInsert C U)).Sublist (keys U) := by
  induction U with
  | nil => simp [clsInsert, keys]
  | cons p t ih =>
    unfold clsInsert at ih ⊢
    rw [List.filterMap_cons]
    by_cases h0 : lkD C p.1 0 = 0
    · rw [if_pos h0]
      rw [show keys ((p.1, p.2) :: List.filterMap _ t)
        = p.1 :: keys (List.filterMap _ t) from rfl]
      rw [show keys (p :: t) = p.1 :: keys t from rfl]
      exact ih.cons₂ p.1
    · rw [if_neg h0]
      rw [show keys (p :: t) = p.1 :: keys t from rfl]
      exact ih.cons p.1

theorem keys_clsUpdate_sublist (C U : List (Addr × Int)) :
    (keys (clsUpdate C U)).Sublist (keys U) := by
  induction U with
  | nil => simp [clsUpdate, keys]
  | cons p t ih =>
    unfold clsUpdate at ih ⊢
    rw [List.filterMap_cons]
    by_cases h0 : lkD C p.1 0 = 0
    · rw [if_pos h0]
      rw [show keys (p :: t) = p.1 :: keys t from rfl]
      exact ih.cons p.1
    · rw [if_neg h0]
      by_cases h1 : lkD C p.1 0 + p.2 = 0
      · rw [if_pos h1]
        rw [show keys (p :: t) = p.1 :: keys t from rfl]
        exact ih.cons p.1
      · rw [if_neg h1]
        rw [show keys ((p.1, lkD C p.1 0 + p.2) :: List.filterMap _ t)
          = p.1 :: keys (List.filterMap _ t) from rfl]
        rw [show keys (p :: t) = p.1 :: keys t from rfl]
        exact ih.cons₂ p.1

theorem NK_clsInsert {C U : List (Addr × Int)} (hU : NK U) :
    NK (clsInsert C U) :=
  List.Nodup.sublist (keys_clsInsert_sublist C U) hU

theorem NK_clsUpdate {C U : List (Addr × Int)} (hU : NK U) :
    NK (clsUpdate C U) :=
  List.Nodup.sublist (keys_clsUpdate_sublist C U) hU

theorem mem_clsInsert {C U : List (Addr × Int)} {q : Addr × Int} :
    q ∈ clsInsert C U ↔ q ∈ U ∧ lkD C q.1 0 = 0 := by
  unfold clsInsert
  rw [List.mem_filterMap]
  constructor
  · rintro ⟨p, hp, hg⟩
    by_cases h0 : lkD C p.1 0 = 0
    · rw [if_pos h0] at hg
      injection hg with hg
      rw [← hg]
      rw [Prod.mk.eta]
      exact ⟨hp, h0⟩
    · rw [if_neg h0] at hg
      cases hg
  · rintro ⟨hq, h0⟩
    refine ⟨q, hq, ?_⟩
    rw [if_pos h0, Prod.mk.eta]

theorem mem_clsUpdate {C U : List (Addr × Int)} {q : Addr × Int} :
    q ∈ clsUpdate C U ↔
      ∃ d, (q.1, d) ∈ U ∧ lkD C q.1 0 ≠ 0 ∧ lkD C q.1 0 + d ≠ 0
        ∧ q.2 = lkD C q.1 0 + d := by
  unfold clsUpdate
  rw [List.mem_filterMap]
  constructor
  · rintro ⟨p, hp, hg⟩
    by_cases h0 : lkD C p.1 0 = 0
    · rw [if_pos h0] at hg
      cases hg
    · rw [if_neg h0] at hg
      by_cases h1 : lkD C p.1 0 + p.2 = 0
      · rw [if_pos h1] at hg
        cases hg
      · rw [if_neg h1] at hg
        injection hg with hg
        subst hg
        exact ⟨p.2, by simpa using hp, h0, h1, rfl⟩
  · rintro ⟨d, hd, h0, h1, hv⟩
    refine ⟨(q.1, d), hd, ?_⟩
    dsimp only
    rw [if_neg h0, if_neg h1, ← hv, Prod.mk.eta]

theorem mem_clsDelete {C U : List (Addr × Int)} (hU : NK U) (x : Addr) :
    x ∈ clsDelete C U ↔
      ∃ d, lk U x = some d ∧ lkD C x 0 ≠ 0 ∧ lkD C x 0 + d = 0 := by
  unfold clsDelete
  rw [List.mem_filterMap]
  constructor
  · rintro ⟨p, hp, hg⟩
    by_cases h0 : lkD C p.1 0 = 0
    · rw [if_pos h0] at hg
      cases hg
    · rw [if_neg h0] at hg
      by_cases h1 : lkD C p.1 0 + p.2 = 0
      · rw [if_pos h1] at hg
        injection hg with hg
        subst hg
        exact ⟨p.2, mem_lk hU hp, h0, h1⟩
      · rw [if_neg h1] at hg
        cases hg
  · rintro ⟨d, hd, h0, h1⟩
    refine ⟨(x, d), lk_some_mem hd, ?_⟩
    dsimp only
    rw [if_neg h0, if_pos h1]

theorem lk_clsInsert {C U : List (Addr × Int)} (hU : NK U) (x : Addr) :
    lk (clsInsert C U) x
      = (lk U x).bind
          (fun d => if lkD C x 0 = 0 then some d else none) := by
  cases hu : lk U x with
  | some d =>
    by_cases h0 : lkD C x 0 = 0
    · simp only [Option.bind, if_pos h0]
      exact mem_lk (NK_clsInsert hU)
        (mem_clsInsert.mpr ⟨lk_some_mem hu, h0⟩)
    · simp only [Option.bind, if_neg h0]
      rw [lk_eq_none]
      intro hmem
      rw [mem_keys] at hmem
      obtain ⟨v, hv⟩ := hmem
      exact h0 (mem_clsInsert.mp hv).2
  | none =>
    simp only [Option.bind]
    rw [lk_eq_none]
    intro hmem
    rw [mem_keys] at hmem
    obtain ⟨v, hv⟩ := hmem
    have := (mem_clsInsert.mp hv).1
    rw [lk_eq_none] at hu
    exact hu (mem_keys.mpr ⟨v, this⟩)

theorem lk_clsUpdate {C U : List (Addr × Int)} (hU : NK U) (x : Addr) :
    lk (clsUpdate C U) x
      = (lk U x).bind
          (fun d => if lkD C x 0 = 0 then none
            else if lkD C x 0 + d = 0 then none
            else some (lkD C x 0 + d)) := by
  cases hu : lk U x with
  | some d =>
    by_cases h0 : lkD C x 0 = 0
    · simp only [Option.bind, if_pos h0]
      rw [lk_eq_none]
      intro hmem
      rw [mem_keys] at hmem
      obtain ⟨v, hv⟩ := hmem
      obtain ⟨e, he, h0x, _, _⟩ := mem_clsUpdate.mp hv
      exact h0x h0
    · by_cases h1 : lkD C x 0 + d = 0
      · simp only [Option.bind, if_neg h0, if_pos h1]
        rw [lk_eq_none]
        intro hmem
        rw [mem_keys] at hmem
        obtain ⟨v, hv⟩ := hmem
        obtain ⟨e, he, _, he1, _⟩ := mem_clsUpdate.mp hv
        have : e = d := by
          have := mem_lk hU he
          rw [hu] at this
          injection this with hh
          exact hh.symm
        subst this
        exact he1 h1
      · simp only [Option.bind, if_neg h0, if_neg h1]
        have hmem : ((x, lkD C x 0 + d) : Addr × Int) ∈ clsUpdate C U :=
          mem_clsUpdate.mpr ⟨d, lk_some_mem hu, h0, h1, rfl⟩
        exact mem_lk (NK_clsUpdate hU) hmem
  | none =>
    simp only [Option.bind]
    rw [lk_eq_none]
    intro hmem
    rw [mem_keys] at hmem
    obtain ⟨v, hv⟩ := hmem
    obtain ⟨e, he, _⟩ := mem_clsUpdate.mp hv
    rw [lk_eq_none] at hu
    exact hu (mem_keys.mpr ⟨e, he⟩)

theorem mem_keys_clsDelete {C U : List (Addr × Int)} {x : Addr}
    (hx : x ∈ clsDelete C U) : x ∈ keys U := by
  unfold clsDelete at hx
  rw [List.mem_filterMap] at hx
  obtain ⟨p, hp, hg⟩ := hx
  by_cases h0 : lkD C p.1 0 = 0
  · rw [if_pos h0] at hg
    cases hg
  · rw [if_neg h0] at hg
    by_cases h1 : lkD C p.1 0 + p.2 = 0
    · rw [if_pos h1] at hg
      injection hg with hg
      subst hg
      rw [mem_keys]
      exact ⟨p.2, by rw [Prod.mk.eta]; exact hp⟩
    · rw [if_neg h1] at hg
      cases hg

/-- The merge loop of `_commit`: addresses not pending are untouched. -/
theorem mergeFold_not_mem (U : List (Addr × Int)) :
    ∀ (C : List (Addr × Int)) (x : Addr), x ∉ keys U →
      lk (U.foldl (fun c p => setk c p.1 (lkD c p.1 0 + p.2)) C) x
        = lk C x := by
  induction U with
  | nil => intro C x _; rfl
  | cons p t ih =>
    intro C x hx
    rw [show keys (p :: t) = p.1 :: keys t from rfl, List.mem_cons] at hx
    push_neg at hx
    simp only [List.foldl_cons]
    rw [ih _ x hx.2, lk_setk_ne]
    exact hx.1

/-- The merge loop of `_commit`: each pending address gains its delta on
top of the pre-merge cache value; others are untouched. -/
theorem mergeFold_lk {U : List (Addr × Int)} (hU : NK U) :
    ∀ (C : List (Addr × Int)) (x : Addr),
      lk (U.foldl (fun c p => setk c p.1 (lkD c p.1 0 + p.2)) C) x
        = match lk U x with
          | some d => some (lkD C x 0 + d)
          | none => lk C x := by
  induction U with
  | nil => intro C x; rfl
  | cons p t ih =>
    obtain ⟨k, v⟩ := p
    rw [NK_cons] at hU
    intro C x
    simp only [List.foldl_cons, lk]
    by_cases hkx : k = x
    · subst hkx
      rw [if_pos rfl]
      rw [mergeFold_not_mem t _ k hU.1, lk_setk_self]
    · rw [if_neg hkx, ih hU.2]
      cases ht : lk t x with
      | some d =>
        unfold lkD
        rw [lk_setk_ne _ _ _ _ (fun hh => hkx hh.symm)]
      | none =>
        rw [lk_setk_ne _ _ _ _ (fun hh => hkx hh.symm)]

theorem NK_mergeFold (U : List (Addr × Int)) :
    ∀ C : List (Addr × Int), NK C →
      NK (U.foldl (fun c p => setk c p.1 (lkD c p.1 0 + p.2)) C) := by
  induction U with
  | nil => intro C h; exact h
  | cons p t ih =>
    intro C h
    simp only [List.foldl_cons]
    exact ih _ (NK_setk h)

end BalanceProxyCache

open BalanceProxyCache in
/-- Effect of the classified `storage.update` of a commit on the in-memory
store: every pending address moves by its delta, every other address is
untouched, and the table keys stay distinct.  `C` is the cache baseline
used by the classification, assumed to agree with the store on every
pending address. -/
theorem update_cls_effect (S : MemoryBalanceStorage)
    {C U : List (Addr × Int)} (hU : NK U) (hS : NK S.balance)
    (hbl : ∀ x ∈ keys U, lkD C x 0 = lkD S.balance x 0) (h : Int) :
    (∀ x, lkD (S.update (clsInsert C U) (clsUpdate C U)
        (clsDelete C U) h).balance x 0
      = lkD S.balance x 0 + lkD U x 0)
    ∧ NK (S.update (clsInsert C U) (clsUpdate C U)
        (clsDelete C U) h).balance := by
  constructor
  · intro x
    unfold MemoryBalanceStorage.update
    dsimp only
    cases hu : lk U x with
    | none =>
      have hxU : x ∉ keys U := lk_eq_none.mp hu
      have h3 : x ∉ clsDelete C U := fun hmem => hxU (mem_keys_clsDelete hmem)
      have h2 : x ∉ keys (clsUpdate C U) :=
        fun hmem => hxU ((keys_clsUpdate_sublist C U).subset hmem)
      have h1 : x ∉ keys (clsInsert C U) :=
        fun hmem => hxU ((keys_clsInsert_sublist C U).subset hmem)
      rw [lkD_congr 0 ((lk_delkFold_not_mem h3).trans
        ((lk_setkFold_not_mem h2).trans (lk_setkFold_not_mem h1))),
        lkD_of_none 0 hu]
      omega
    | some d =>
      have hxU : x ∈ keys U := mem_keys_of_lk_some hu
      have hb := hbl x hxU
      by_cases h0 : lkD S.balance x 0 = 0
      · have hC0 : lkD C x 0 = 0 := hb.trans h0
        have hins : lk (clsInsert C U) x = some d := by
          rw [lk_clsInsert hU x, hu]
          show (if lkD C x 0 = 0 then some d else none) = some d
          rw [if_pos hC0]
        have hupd : x ∉ keys (clsUpdate C U) := by
          intro hmem
          rw [mem_keys] at hmem
          obtain ⟨v, hv⟩ := hmem
          obtain ⟨e, _, h0x, _, _⟩ := mem_clsUpdate.mp hv
          exact h0x hC0
        have hdel : x ∉ clsDelete C U := by
          intro hmem
          obtain ⟨e, _, h0x, _⟩ := (mem_clsDelete hU x).mp hmem
          exact h0x hC0
        have hlk : lk ((clsDelete C U).foldl (fun m x => delk m x)
            ((clsUpdate C U).foldl (fun m p => setk m p.1 p.2)
              ((clsInsert C U).foldl (fun m p => setk m p.1 p.2) S.balance))) x
            = some d := by
          rw [lk_delkFold_not_mem hdel, lk_setkFold_not_mem hupd]
          exact lk_setkFold_mem (NK_clsInsert hU) (lk_some_mem hins)
        rw [lkD_of_some 0 hlk, lkD_of_some 0 hu, h0]
        omega
      · have hC0 : lkD C x 0 ≠ 0 := fun hh => h0 (hb.symm.trans hh)
        by_cases h1 : lkD S.balance x 0 + d = 0
        · have hC1 : lkD C x 0 + d = 0 := by rw [hb]; exact h1
          have hins : x ∉ keys (clsInsert C U) := by
            intro hmem
            rw [mem_keys] at hmem
            obtain ⟨v, hv⟩ := hmem
            exact hC0 (mem_clsInsert.mp hv).2
          have hupd : x ∉ keys (clsUpdate C U) := by
            intro hmem
            rw [mem_keys] at hmem
            obtain ⟨v, hv⟩ := hmem
            obtain ⟨e, he, _, h1x, _⟩ := mem_clsUpdate.mp hv
            have : e = d := by
              have hl := mem_lk hU he
              rw [hu] at hl
              injection hl with hl
              exact hl.symm
            subst this
            exact h1x hC1
          have hdel : x ∈ clsDelete C U :=
            (mem_clsDelete hU x).mpr ⟨d, hu, hC0, hC1⟩
          have hlk : lk ((clsDelete C U).foldl (fun m x => delk m x)
              ((clsUpdate C U).foldl (fun m p => setk m p.1 p.2)
                ((clsInsert C U).foldl (fun m p => setk m p.1 p.2) S.balance))) x
              = none := lk_delkFold_mem (NK_setkFold (NK_setkFold hS)) hdel
          rw [lkD_of_none 0 hlk, lkD_of_some 0 hu]
          omega
        · have hC1 : lkD C x 0 + d ≠ 0 := by rw [hb]; exact h1
          have hins : x ∉ keys (clsInsert C U) := by
            intro hmem
            rw [mem_keys] at hmem
            obtain ⟨v, hv⟩ := hmem
            exact hC0 (mem_clsInsert.mp hv).2
          have hupd : lk (clsUpdate C U) x = some (lkD C x 0 + d) := by
            rw [lk_clsUpdate hU x, hu]
            show (if lkD C x 0 = 0 then none
              else if lkD C x 0 + d = 0 then none
              else some (lkD C x 0 + d)) = some (lkD C x 0 + d)
            rw [if_neg hC0, if_neg hC1]
          have hdel : x ∉ clsDelete C U := by
            intro hmem
            obtain ⟨e, he, _, h1x⟩ := (mem_clsDelete hU x).mp hmem
            have : e = d := by
              rw [hu] at he
              injection he with he
              exact he.symm
            subst this
            exact hC1 h1x
          have hlk : lk ((clsDelete C U).foldl (fun m x => delk m x)
              ((clsUpdate C U).foldl (fun m p => setk m p.1 p.2)
                ((clsInsert C U).foldl (fun m p => setk m p.1 p.2) S.balance))) x
              = some (lkD C x 0 + d) := by
            rw [lk_delkFold_not_mem hdel]
            exact lk_setkFold_mem (NK_clsUpdate hU) (lk_some_mem hupd)
          rw [lkD_of_some 0 hlk, lkD_of_some 0 hu, hb]
  · unfold MemoryBalanceStorage.update
    dsimp only
    exact NK_delkFold (NK_setkFold (NK_setkFold hS))

namespace BalanceProxyCache

/-- Full description of a committing `commit(height)` call (strictly
increasing height) on a well-formed cache: the single issued store write,
the emptied pending map, the store effect (every pending address moves by
its delta), and the preserved well-formedness and cache/store coherence. -/
theorem commitWithWrite_spec (st : BalanceProxyCache) (h : Int)
    (hlt : st.height < h)
    (hnkC : NK st.cache) (hnkU : NK st.updates)
    (hnkS : NK st.storage.balance)
    (hcoh : ∀ p ∈ st.cache, p.2 = lkD st.storage.balance p.1 0) :
    ∃ st' w,
      st.commitWithWrite h = Except.ok (st', some w)
      ∧ w.height = h
      ∧ st'.updates = []
      ∧ st'.trimCache = true
      ∧ st'.height = h
      ∧ st'.maxCache = st.maxCache
      ∧ st'.storage.height = h
      ∧ (∀ x, lk w.insert x = (lk st.updates x).bind
          (fun d => if lkD st.storage.balance x 0 = 0 then some d else none))
      ∧ (∀ x, lk w.update x = (lk st.updates x).bind
          (fun d => if lkD st.storage.balance x 0 = 0 then none
            else if lkD st.storage.balance x 0 + d = 0 then none
            else some (lkD st.storage.balance x 0 + d)))
      ∧ (∀ x, x ∈ w.delete ↔ ∃ d, lk st.updates x = some d
          ∧ lkD st.storage.balance x 0 ≠ 0
          ∧ lkD st.storage.balance x 0 + d = 0)
      ∧ (∀ x, lkD st'.storage.balance x 0
          = lkD st.storage.balance x 0 + lkD st.updates x 0)
      ∧ NK st'.storage.balance
      ∧ NK st'.cache
      ∧ (∀ p ∈ st'.cache, p.2 = lkD st'.storage.balance p.1 0) := by
  have hload := loadToCacheBulk_spec
    (BalanceProxyCache.mk st.cache st.maxCache st.storage h st.updates false)
    (keys st.updates) hnkC hnkU rfl
  have hbridge : ∀ x ∈ keys st.updates,
      lkD ((BalanceProxyCache.mk st.cache st.maxCache st.storage h
        st.updates false).loadToCacheBulk (keys st.updates)).cache x 0
      = lkD st.storage.balance x 0 := by
    intro x hx
    have h2 := hload.1 x hx
    rw [lkD_of_some 0 h2]
    cases hc : lk st.cache x with
    | none => rfl
    | some v => exact hcoh (x, v) (lk_some_mem hc)
  have hcoh2 : ∀ q ∈ ((BalanceProxyCache.mk st.cache st.maxCache st.storage h
      st.updates false).loadToCacheBulk (keys st.updates)).cache,
      q.2 = lkD st.storage.balance q.1 0 := by
    intro q hq
    have hlq := mem_lk hload.2.2 hq
    by_cases hx : q.1 ∈ keys st.updates
    · have h2 := hload.1 q.1 hx
      rw [h2] at hlq
      injection hlq with hlq
      rw [← hlq]
      cases hc : lk st.cache q.1 with
      | none => rfl
      | some v => exact hcoh (q.1, v) (lk_some_mem hc)
    · have h2 := hload.2.1 q.1 hx
      rw [h2] at hlq
      exact hcoh (q.1, q.2) (lk_some_mem hlq)
  have heff := update_cls_effect st.storage hnkU hnkS hbridge h
  unfold commitWithWrite commitCore
  dsimp only
  rw [if_neg (show ¬ h < st.height by omega),
    if_neg (show ¬ h = st.height by omega)]
  dsimp only
  rw [clsFold_spec]
  simp only [List.nil_append, loadToCacheBulk_updates,
    loadToCacheBulk_storage, loadToCacheBulk_maxCache]
  refine ⟨_, _, rfl, rfl, rfl, rfl, rfl, rfl, rfl, ?_, ?_, ?_, ?_, ?_, ?_, ?_⟩
  · intro x
    rw [lk_clsInsert hnkU x]
    cases hu : lk st.updates x with
    | none => rfl
    | some d =>
      show (if lkD _ x 0 = 0 then some d else none)
        = (if lkD st.storage.balance x 0 = 0 then some d else none)
      rw [hbridge x (mem_keys_of_lk_some hu)]
  · intro x
    rw [lk_clsUpdate hnkU x]
    cases hu : lk st.updates x with
    | none => rfl
    | some d =>
      show (if lkD _ x 0 = 0 then none
          else if lkD _ x 0 + d = 0 then none else some (lkD _ x 0 + d))
        = (if lkD st.storage.balance x 0 = 0 then none
          else if lkD st.storage.balance x 0 + d = 0 then none
          else some (lkD st.storage.balance x 0 + d))
      rw [hbridge x (mem_keys_of_lk_some hu)]
  · intro x
    rw [mem_clsDelete hnkU x]
    constructor
    · rintro ⟨d, hd, h0, h1⟩
      have hb := hbridge x (mem_keys_of_lk_some hd)
      rw [hb] at h0 h1
      exact ⟨d, hd, h0, h1⟩
    · rintro ⟨d, hd, h0, h1⟩
      have hb := hbridge x (mem_keys_of_lk_some hd)
      refine ⟨d, hd, ?_, ?_⟩
      · rw [hb]
        exact h0
      · rw [hb]
        exact h1
  · intro x
    exact heff.1 x
  · exact heff.2
  · show NK (List.drop _ _)
    have hmn := NK_mergeFold st.updates _ hload.2.2
    exact List.Nodup.sublist ((List.drop_sublist _ _).map Prod.fst) hmn
  · intro p hp
    have hpm : p ∈ (st.updates.foldl
        (fun c q => setk c q.1 (lkD c q.1 0 + q.2))
        ((BalanceProxyCache.mk st.cache st.maxCache st.storage h
          st.updates false).loadToCacheBulk (keys st.updates)).cache) :=
      (List.drop_sublist _ _).subset hp
    have hmn := NK_mergeFold st.updates _ hload.2.2
    have hlp := mem_lk hmn hpm
    rw [mergeFold_lk hnkU _ p.1] at hlp
    cases hu : lk st.updates p.1 with
    | some d =>
      rw [hu] at hlp
      injection hlp with hlp
      rw [← hlp, heff.1 p.1, lkD_of_some 0 hu,
        hbridge p.1 (mem_keys_of_lk_some hu)]
    | none =>
      rw [hu] at hlp
      rw [heff.1 p.1, lkD_of_none 0 hu]
      have := hcoh2 p (lk_some_mem hlp)
      omega

end BalanceProxyCache

/-- C7: `BalanceProxyCache.update` with delta 0 leaves the pending map
unchanged; an update that drives an address's accumulated pending delta to
0 removes its entry; and updates never introduce a zero delta into a
pending map free of them. -/
theorem cache_update_zero_suppression :
    (∀ (st : BalanceProxyCache) (a : Addr), st.update a 0 = st)
    ∧ (∀ (st : BalanceProxyCache) (a : Addr) (v : Int),
        NK st.updates → v ≠ 0 → lkD st.updates a 0 + v = 0 →
        lk (st.update a v).updates a = none)
    ∧ (∀ (st : BalanceProxyCache) (a : Addr) (v : Int),
        (∀ p ∈ st.updates, p.2 ≠ 0) →
        ∀ p ∈ (st.update a v).updates, p.2 ≠ 0) := by
  refine ⟨?_, ?_, ?_⟩
  · intro st a
    unfold BalanceProxyCache.update
    rw [if_pos rfl]
  · intro st a v hnk hv hz
    unfold BalanceProxyCache.update
    rw [if_neg hv]
    show lk (bump st.updates a v) a = none
    unfold bump
    rw [if_pos hz]
    exact lk_delk_self hnk
  · intro st a v hnz p hp
    unfold BalanceProxyCache.update at hp
    by_cases hv : v = 0
    · rw [if_pos hv] at hp
      exact hnz p hp
    · rw [if_neg hv] at hp
      show p.2 ≠ 0
      have hp' : p ∈ bump st.updates a v := hp
      unfold bump at hp'
      by_cases hz : lkD st.updates a 0 + v = 0
      · rw [if_pos hz] at hp'
        exact hnz p (mem_delk hp')
      · rw [if_neg hz] at hp'
        rcases mem_setk hp' with hm | hm
        · exact hnz p hm
        · rw [hm]
          exact hz

/-- C7 witness: updating a fresh cache by +5 and then -5 at the same
address removes the pending entry. -/
theorem cache_update_zero_suppression_witness :
    NK ((BalanceProxyCache.init MemoryBalanceStorage.init 1000).update
        "A" 5).updates
    ∧ (-5 : Int) ≠ 0
    ∧ lkD ((BalanceProxyCache.init MemoryBalanceStorage.init 1000).update
        "A" 5).updates "A" 0 + (-5) = 0
    ∧ lk (((BalanceProxyCache.init MemoryBalanceStorage.init 1000).update
        "A" 5).update "A" (-5)).updates "A" = none :=
  ⟨by decide, by decide, by decide,
   cache_update_zero_suppression.2.1
     ((BalanceProxyCache.init MemoryBalanceStorage.init 1000).update "A" 5)
     "A" (-5) (by decide) (by decide) (by decide)⟩

/-- C3: a committing `commit(h)` with `h` strictly above the cache height
issues exactly one `storage.update` call, with height argument `h`, in
which every address with a (nonzero) pending delta d and durable baseline
b appears in exactly one class: as an insert with value b + d when b = 0,
as a delete when b + d = 0, and as an update with value b + d otherwise;
addresses without a pending delta appear nowhere, and afterwards the
pending map is empty. -/
theorem commit_classification :
    ∀ (st : BalanceProxyCache) (h : Int),
      st.height < h →
      NK st.cache → NK st.updates → NK st.storage.balance →
      (∀ p ∈ st.cache, p.2 = lkD st.storage.balance p.1 0) →
      (∀ p ∈ st.updates, p.2 ≠ 0) →
      ∃ st' w, st.commitWithWrite h = Except.ok (st', some w)
        ∧ w.height = h
        ∧ st'.updates = []
        ∧ (∀ a d, lk st.updates a = some d →
            ((lkD st.storage.balance a 0 = 0 →
              lk w.insert a = some (lkD st.storage.balance a 0 + d)
              ∧ lk w.update a = none ∧ a ∉ w.delete)
            ∧ (lkD st.storage.balance a 0 ≠ 0 →
               lkD st.storage.balance a 0 + d = 0 →
              a ∈ w.delete ∧ lk w.insert a = none ∧ lk w.update a = none)
            ∧ (lkD st.storage.balance a 0 ≠ 0 →
               lkD st.storage.balance a 0 + d ≠ 0 →
              lk w.update a = some (lkD st.storage.balance a 0 + d)
              ∧ lk w.insert a = none ∧ a ∉ w.delete)))
        ∧ (∀ a, lk st.updates a = none →
            lk w.insert a = none ∧ lk w.update a = none ∧ a ∉ w.delete) := by
  intro st h hlt hnkC hnkU hnkS hcoh hnz
  obtain ⟨st', w, heq, hh, hupd0, _, _, _, _, hins, hupdl, hdel, _⟩ :=
    BalanceProxyCache.commitWithWrite_spec st h hlt hnkC hnkU hnkS hcoh
  refine ⟨st', w, heq, hh, hupd0, ?_, ?_⟩
  · intro a d hd
    refine ⟨?_, ?_, ?_⟩
    · intro hb
      refine ⟨?_, ?_, ?_⟩
      · rw [hins a, hd]
        show (if lkD st.storage.balance a 0 = 0 then some d else none)
          = some (lkD st.storage.balance a 0 + d)
        rw [if_pos hb, hb, zero_add]
      · rw [hupdl a, hd]
        show (if lkD st.storage.balance a 0 = 0 then none
          else if lkD st.storage.balance a 0 + d = 0 then none
          else some (lkD st.storage.balance a 0 + d)) = none
        rw [if_pos hb]
      · intro hmem
        obtain ⟨e, he, h0, _⟩ := (hdel a).mp hmem
        exact h0 hb
    · intro h0 h1
      refine ⟨?_, ?_, ?_⟩
      · exact (hdel a).mpr ⟨d, hd, h0, h1⟩
      · rw [hins a, hd]
        show (if lkD st.storage.balance a 0 = 0 then some d else none) = none
        rw [if_neg h0]
      · rw [hupdl a, hd]
        show (if lkD st.storage.balance a 0 = 0 then none
          else if lkD st.storage.balance a 0 + d = 0 then none
          else some (lkD st.storage.balance a 0 + d)) = none
        rw [if_neg h0, if_pos h1]
    · intro h0 h1
      refine ⟨?_, ?_, ?_⟩
      · rw [hupdl a, hd]
        show (if lkD st.storage.balance a 0 = 0 then none
          else if lkD st.storage.balance a 0 + d = 0 then none
          else some (lkD st.storage.balance a 0 + d))
          = some (lkD st.storage.balance a 0 + d)
        rw [if_neg h0, if_neg h1]
      · rw [hins a, hd]
        show (if lkD st.storage.balance a 0 = 0 then some d else none) = none
        rw [if_neg h0]
      · intro hmem
        obtain ⟨e, he, _, h1x⟩ := (hdel a).mp hmem
        rw [hd] at he
        injection he with he
        subst he
        exact h1 h1x
  · intro a ha
    refine ⟨?_, ?_, ?_⟩
    · rw [hins a, ha]
      rfl
    · rw [hupdl a, ha]
      rfl
    · intro hmem
      obtain ⟨e, he, _, _⟩ := (hdel a).mp hmem
      rw [ha] at he
      cases he

/-- C3 witness: the first commit of scenario S5 — pending A:+1, B:+2 over
an empty store, committed at height 33. -/
theorem commit_classification_witness :
    (((BalanceProxyCache.init MemoryBalanceStorage.init 1000).update
        "A" 1).update "B" 2).height < 33
    ∧ (∃ st' w,
        (((BalanceProxyCache.init MemoryBalanceStorage.init 1000).update
            "A" 1).update "B" 2).commitWithWrite 33 = Except.ok (st', some w)
        ∧ w.height = 33
        ∧ st'.updates = []
        ∧ (∀ a d, lk (((BalanceProxyCache.init MemoryBalanceStorage.init
              1000).update "A" 1).update "B" 2).updates a = some d →
            ((lkD (((BalanceProxyCache.init MemoryBalanceStorage.init
                1000).update "A" 1).update "B" 2).storage.balance a 0 = 0 →
              lk w.insert a = some (lkD (((BalanceProxyCache.init
                MemoryBalanceStorage.init 1000).update "A" 1).update
                "B" 2).storage.balance a 0 + d)
              ∧ lk w.update a = none ∧ a ∉ w.delete)
            ∧ (lkD (((BalanceProxyCache.init MemoryBalanceStorage.init
                1000).update "A" 1).update "B" 2).storage.balance a 0 ≠ 0 →
               lkD (((BalanceProxyCache.init MemoryBalanceStorage.init
                1000).update "A" 1).update "B" 2).storage.balance a 0 + d
                = 0 →
              a ∈ w.delete ∧ lk w.insert a = none ∧ lk w.update a = none)
            ∧ (lkD (((BalanceProxyCache.init MemoryBalanceStorage.init
                1000).update "A" 1).update "B" 2).storage.balance a 0 ≠ 0 →
               lkD (((BalanceProxyCache.init MemoryBalanceStorage.init
                1000).update "A" 1).update "B" 2).storage.balance a 0 + d
                ≠ 0 →
              lk w.update a = some (lkD (((BalanceProxyCache.init
                MemoryBalanceStorage.init 1000).update "A" 1).update
                "B" 2).storage.balance a 0 + d)
              ∧ lk w.insert a = none ∧ a ∉ w.delete)))
        ∧ (∀ a, lk (((BalanceProxyCache.init MemoryBalanceStorage.init
              1000).update "A" 1).update "B" 2).updates a = none →
            lk w.insert a = none ∧ lk w.update a = none ∧ a ∉ w.delete)) :=
  ⟨by decide,
   commit_classification
     (((BalanceProxyCache.init MemoryBalanceStorage.init 1000).update
        "A" 1).update "B" 2) 33 (by decide) (by decide) (by decide)
     (by decide) (by decide) (by decide)⟩

/-- C8: for both storage implementations, `get_bulk` returns exactly the
pairs `(a, get(a))` for the requested addresses present in the store, and
omits absent addresses. -/
theorem get_bulk_roundtrip :
    (∀ (st : MemoryBalanceStorage) (addrs : List Addr) (a : Addr) (v : Int),
      (a, v) ∈ st.get_bulk addrs ↔ a ∈ addrs ∧ st.get a none = Except.ok v)
    ∧ (∀ (st : SQLBalanceStorage) (addrs : List Addr) (a : Addr) (v : Int),
      NK st.rows →
      ((a, v) ∈ st.get_bulk addrs ↔ a ∈ addrs ∧ st.get a none = Except.ok v)) := by
  constructor
  · intro st addrs a v
    unfold MemoryBalanceStorage.get_bulk MemoryBalanceStorage.get
    rw [List.mem_filterMap]
    constructor
    · rintro ⟨x, hx, hfx⟩
      rw [Option.map_eq_some'] at hfx
      obtain ⟨w, hw, heq⟩ := hfx
      injection heq with h1 h2
      subst h1
      subst h2
      refine ⟨hx, ?_⟩
      rw [hw]
    · rintro ⟨ha, hget⟩
      refine ⟨a, ha, ?_⟩
      cases hl : lk st.balance a with
      | none =>
        rw [hl] at hget
        cases hget
      | some w =>
        rw [hl] at hget
        injection hget with h1
        rw [h1]
        rfl
  · intro st addrs a v hnk
    unfold SQLBalanceStorage.get_bulk SQLBalanceStorage.get
    rw [List.mem_filter]
    constructor
    · rintro ⟨hrow, hmem⟩
      rw [decide_eq_true_eq] at hmem
      refine ⟨hmem, ?_⟩
      rw [mem_lk hnk hrow]
    · rintro ⟨ha, hget⟩
      cases hl : lk st.rows a with
      | none =>
        rw [hl] at hget
        cases hget
      | some w =>
        rw [hl] at hget
        injection hget with h1
        subst h1
        exact ⟨lk_some_mem hl, decide_eq_true ha⟩

/-- C8 witness: a concrete SQL store with one row answers a two-address
bulk request with exactly that row. -/
theorem get_bulk_roundtrip_witness :
    NK (SQLBalanceStorage.mk [("A", 5)] 3).rows
    ∧ (("A", (5 : Int)) ∈ (SQLBalanceStorage.mk [("A", 5)] 3).get_bulk ["A", "B"]
        ↔ "A" ∈ ["A", "B"]
          ∧ (SQLBalanceStorage.mk [("A", 5)] 3).get "A" none = Except.ok 5) :=
  ⟨by decide,
   get_bulk_roundtrip.2 (SQLBalanceStorage.mk [("A", 5)] 3) ["A", "B"] "A" 5
     (by decide)⟩

/-- C5 counterexample: the in-memory store accepts an insert for an
address that already exists — `dict.update` silently overwrites the
balance and the tip is still rewritten, where the claim requires the whole
operation to fail with the state unchanged. -/
theorem memory_insert_overwrite_cex :
    lk ((MemoryBalanceStorage.mk [("A", 1)] 10).update
          [("A", 2)] [] [] 77).balance "A" = some 2
    ∧ ((MemoryBalanceStorage.mk [("A", 1)] 10).update
          [("A", 2)] [] [] 77).height = 77
    ∧ lk (MemoryBalanceStorage.mk [("A", 1)] 10).balance "A" = some 1 := by
  refine ⟨?_, rfl, ?_⟩
  · decide
  · decide

/-- C5 (amended): the SQL store's `update` rejects an insert map holding an
existing address, failing the single transaction with balances and tip
unchanged, and commits atomically with the tip overwritten otherwise; the
in-memory store enforces no insert uniqueness — its `update` always
succeeds, overwrites the balance of an already present inserted address in
place and rewrites the tip. -/
theorem store_update_uniqueness_amended :
    (∀ (st : SQLBalanceStorage) (ins upd : List (Addr × Int))
        (del : List Addr) (h : Int),
      (∃ p ∈ ins, p.1 ∈ keys st.rows) →
      st.update ins upd del h = Except.error ())
    ∧ (∀ (st : SQLBalanceStorage) (ins upd : List (Addr × Int))
        (del : List Addr) (h : Int),
      (∀ p ∈ ins, p.1 ∉ keys st.rows) →
      ∃ st', st.update ins upd del h = Except.ok st' ∧ st'.height = h)
    ∧ (∀ (st : MemoryBalanceStorage) (ins upd : List (Addr × Int))
        (del : List Addr) (h : Int),
      (st.update ins upd del h).height = h)
    ∧ (∀ (st : MemoryBalanceStorage) (a : Addr) (v h : Int),
      lk ((st.update [(a, v)] [] [] h).balance) a = some v) := by
  refine ⟨?_, ?_, ?_, ?_⟩
  · intro st ins upd del h hex
    unfold SQLBalanceStorage.update
    rw [if_pos]
    rw [List.any_eq_true]
    obtain ⟨p, hp, hmem⟩ := hex
    refine ⟨p, hp, ?_⟩
    rw [lk_isSome_iff]
    exact hmem
  · intro st ins upd del h hall
    unfold SQLBalanceStorage.update
    rw [if_neg]
    · exact ⟨_, rfl, rfl⟩
    · rw [List.any_eq_true]
      rintro ⟨p, hp, hsome⟩
      rw [lk_isSome_iff] at hsome
      exact hall p hp hsome
  · intro st ins upd del h
    rfl
  · intro st a v h
    unfold MemoryBalanceStorage.update
    simp only [List.foldl_cons, List.foldl_nil]
    exact lk_setk_self st.balance a v

/-- C5 witness: the SQL path at a concrete duplicate insert. -/
theorem store_update_uniqueness_amended_witness :
    (∃ p ∈ [(("A" : Addr), (2 : Int))],
        p.1 ∈ keys (SQLBalanceStorage.mk [("A", 1)] 10).rows)
    ∧ (SQLBalanceStorage.mk [("A", 1)] 10).update [("A", 2)] [] [] 77
        = Except.error () :=
  ⟨by decide,
   store_update_uniqueness_amended.1 (SQLBalanceStorage.mk [("A", 1)] 10)
     [("A", 2)] [] [] 77 (by decide)⟩

namespace SrcBalance

theorem addRecord_blocks (st : BalanceProcessor) (a : Addr) (r : TxoRecord) :
    (st.addRecord a r).1.blocks = st.blocks := rfl

theorem delRecord_blocks (st : BalanceProcessor) (a : Addr) (h : Int) :
    (st.delRecord a h).blocks = st.blocks := by
  unfold BalanceProcessor.delRecord
  cases lk st.address_records a with
  | none => rfl
  | some records =>
    dsimp only
    split
    · rfl
    · rfl

theorem delFold_blocks (xs : List TxOut) (hgt : Int) :
    ∀ st : BalanceProcessor,
      (xs.foldl
        (fun s o => match o.addr with
          | some a => if a = "" then s else s.delRecord a hgt
          | none => s) st).blocks = st.blocks := by
  induction xs with
  | nil => intro st; rfl
  | cons o t ih =>
    intro st
    simp only [List.foldl_cons]
    rw [ih]
    cases ha : o.addr with
    | none => rfl
    | some a =>
      dsimp only
      by_cases he : a = ""
      · rw [if_pos he]
      · rw [if_neg he, delRecord_blocks]

theorem removeOldest_blocks (st : BalanceProcessor) :
    st.removeOldestBlock.blocks = st.blocks.tail := by
  unfold BalanceProcessor.removeOldestBlock
  cases hb : st.blocks with
  | nil => simpa using hb
  | cons block rest =>
    dsimp only
    rw [delFold_blocks, delFold_blocks]
    rfl

theorem processVouts_blocks (h : Int) (os : List TxOut) :
    ∀ st : BalanceProcessor,
      (BalanceProcessor.processVouts h st os).1.blocks = st.blocks := by
  induction os with
  | nil => intro st; rfl
  | cons o t ih =>
    intro st
    simp only [BalanceProcessor.processVouts]
    by_cases hk : keepVout o = false
    · rw [if_pos hk]
      exact ih st
    · rw [if_neg hk]
      cases ha : o.addr with
      | none => exact ih st
      | some a =>
        dsimp only
        by_cases hr : (st.addRecord a ⟨OpType.received, o, h⟩).2
        · rw [if_pos hr]
          exact addRecord_blocks st a _
        · rw [if_neg hr]
          rw [ih]
          exact addRecord_blocks st a _

theorem processVins_blocks (h : Int) (is : List TxOut) :
    ∀ st : BalanceProcessor,
      (BalanceProcessor.processVins h st is).1.blocks = st.blocks := by
  induction is with
  | nil => intro st; rfl
  | cons i t ih =>
    intro st
    simp only [BalanceProcessor.processVins]
    by_cases hk : keepVin i = false
    · rw [if_pos hk]
      exact ih st
    · rw [if_neg hk]
      cases ha : i.addr with
      | none => exact ih st
      | some a =>
        dsimp only
        by_cases hr : (st.addRecord a ⟨OpType.spent, i, h⟩).2
        · rw [if_pos hr]
          exact addRecord_blocks st a _
        · rw [if_neg hr]
          rw [ih]
          exact addRecord_blocks st a _

theorem add_block_blocks (st : BalanceProcessor) (b : Block) :
    (st.add_block b).1.blocks =
      (if st.backtrack_limit < st.blocks.length then st.blocks.tail
       else st.blocks) ++ [b] := by
  unfold BalanceProcessor.add_block
  dsimp only
  by_cases hr : (BalanceProcessor.processVouts b.height
      { (if st.backtrack_limit < st.blocks.length
         then st.removeOldestBlock else st) with
        blocks := (if st.backtrack_limit < st.blocks.length
         then st.removeOldestBlock else st).blocks ++ [b] } b.vout).2
  · rw [if_pos hr, processVouts_blocks]
    dsimp only
    by_cases hc : st.backtrack_limit < st.blocks.length
    · rw [if_pos hc, if_pos hc, removeOldest_blocks]
    · rw [if_neg hc, if_neg hc]
  · rw [if_neg hr, processVins_blocks, processVouts_blocks]
    dsimp only
    by_cases hc : st.backtrack_limit < st.blocks.length
    · rw [if_pos hc, if_pos hc, removeOldest_blocks]
    · rw [if_neg hc, if_neg hc]

end SrcBalance

/-- C6 counterexample: with backtrack limit W = 1 the draft processor
holds 2 blocks after two `add_block` calls, exceeding the claimed bound
of W blocks. -/
theorem ring_capacity_cex :
    (((SrcBalance.BalanceProcessor.init 1).add_block
        (Block.mk "h1" 1 [] [])).1.add_block
        (Block.mk "h2" 2 [] [])).1.blocks.length = 2
    ∧ (((SrcBalance.BalanceProcessor.init 1).add_block
        (Block.mk "h1" 1 [] [])).1.add_block
        (Block.mk "h2" 2 [] [])).1.backtrack_limit = 1
    ∧ ¬ (2 ≤ (1 : Nat)) := by
  refine ⟨?_, ?_, by decide⟩
  · decide
  · decide

/-- C6 (amended): the draft `add_block` pops the oldest block before the
append only when the ring already holds strictly more than W blocks, so
after every `add_block` the ring holds at most W + 1 blocks (not W); when
the pre-append length exceeds W exactly one block — the oldest, at the
head — is popped before the new block is appended, and otherwise the
block is appended with nothing popped. -/
theorem ring_capacity_bound :
    ∀ (st : SrcBalance.BalanceProcessor) (b : Block),
      st.blocks.length ≤ st.backtrack_limit + 1 →
      ((st.add_block b).1.blocks.length ≤ st.backtrack_limit + 1
        ∧ (st.backtrack_limit < st.blocks.length →
            (st.add_block b).1.blocks = st.blocks.tail ++ [b])
        ∧ (st.blocks.length ≤ st.backtrack_limit →
            (st.add_block b).1.blocks = st.blocks ++ [b])) := by
  intro st b hlen
  have hb := SrcBalance.add_block_blocks st b
  refine ⟨?_, ?_, ?_⟩
  · rw [hb]
    by_cases hc : st.backtrack_limit < st.blocks.length
    · rw [if_pos hc, List.length_append, List.length_tail]
      simp only [List.length_singleton]
      omega
    · rw [if_neg hc, List.length_append]
      simp only [List.length_singleton]
      omega
  · intro hc
    rw [hb, if_pos hc]
  · intro hc
    rw [hb, if_neg (by omega)]

namespace SrcBalance

theorem addRecord_congr {s t : BalanceProcessor} (a : Addr) (r : TxoRecord)
    (hdb : s.db = t.db) (hrec : s.address_records = t.address_records) :
    (s.addRecord a r).1.db = (t.addRecord a r).1.db
    ∧ (s.addRecord a r).1.address_records = (t.addRecord a r).1.address_records
    ∧ (s.addRecord a r).2 = (t.addRecord a r).2 := by
  unfold BalanceProcessor.addRecord
  rw [hdb, hrec]
  exact ⟨rfl, rfl, rfl⟩

theorem processVouts_congr (h : Int) (os : List TxOut) :
    ∀ s t : BalanceProcessor, s.db = t.db →
      s.address_records = t.address_records →
      ((BalanceProcessor.processVouts h s os).1.db
          = (BalanceProcessor.processVouts h t os).1.db
        ∧ (BalanceProcessor.processVouts h s os).1.address_records
          = (BalanceProcessor.processVouts h t os).1.address_records
        ∧ (BalanceProcessor.processVouts h s os).2
          = (BalanceProcessor.processVouts h t os).2) := by
  induction os with
  | nil =>
    intro s t hdb hrec
    exact ⟨hdb, hrec, rfl⟩
  | cons o rest ih =>
    intro s t hdb hrec
    simp only [BalanceProcessor.processVouts]
    by_cases hk : keepVout o = false
    · rw [if_pos hk, if_pos hk]
      exact ih s t hdb hrec
    · rw [if_neg hk, if_neg hk]
      cases ha : o.addr with
      | none => exact ih s t hdb hrec
      | some a =>
        obtain ⟨h1, h2, h3⟩ :=
          addRecord_congr a ⟨OpType.received, o, h⟩ hdb hrec
        dsimp only
        rw [h3]
        by_cases hr : (t.addRecord a ⟨OpType.received, o, h⟩).2
        · rw [if_pos hr, if_pos hr]
          exact ⟨h1, h2, rfl⟩
        · rw [if_neg hr, if_neg hr]
          exact ih _ _ h1 h2

theorem processVins_congr (h : Int) (is : List TxOut) :
    ∀ s t : BalanceProcessor, s.db = t.db →
      s.address_records = t.address_records →
      ((BalanceProcessor.processVins h s is).1.db
          = (BalanceProcessor.processVins h t is).1.db
        ∧ (BalanceProcessor.processVins h s is).1.address_records
          = (BalanceProcessor.processVins h t is).1.address_records
        ∧ (BalanceProcessor.processVins h s is).2
          = (BalanceProcessor.processVins h t is).2) := by
  induction is with
  | nil =>
    intro s t hdb hrec
    exact ⟨hdb, hrec, rfl⟩
  | cons i rest ih =>
    intro s t hdb hrec
    simp only [BalanceProcessor.processVins]
    by_cases hk : keepVin i = false
    · rw [if_pos hk, if_pos hk]
      exact ih s t hdb hrec
    · rw [if_neg hk, if_neg hk]
      cases ha : i.addr with
      | none => exact ih s t hdb hrec
      | some a =>
        obtain ⟨h1, h2, h3⟩ :=
          addRecord_congr a ⟨OpType.spent, i, h⟩ hdb hrec
        dsimp only
        rw [h3]
        by_cases hr : (t.addRecord a ⟨OpType.spent, i, h⟩).2
        · rw [if_pos hr, if_pos hr]
          exact ⟨h1, h2, rfl⟩
        · rw [if_neg hr, if_neg hr]
          exact ih _ _ h1 h2

theorem processVouts_filter (h : Int) (os : List TxOut) :
    ∀ st : BalanceProcessor,
      BalanceProcessor.processVouts h st (os.filter keepVout)
        = BalanceProcessor.processVouts h st os := by
  induction os with
  | nil => intro st; rfl
  | cons o rest ih =>
    intro st
    by_cases hk : keepVout o = false
    · rw [List.filter_cons_of_neg (by simp [hk])]
      rw [ih]
      conv_rhs => rw [show BalanceProcessor.processVouts h st (o :: rest)
        = BalanceProcessor.processVouts h st rest by
          simp only [BalanceProcessor.processVouts]
          rw [if_pos hk]]
    · rw [List.filter_cons_of_pos (by
        cases hkk : keepVout o
        · exact absurd hkk hk
        · rfl)]
      simp only [BalanceProcessor.processVouts]
      rw [if_neg hk, if_neg hk]
      cases ha : o.addr with
      | none => exact ih st
      | some a =>
        dsimp only
        by_cases hr : (st.addRecord a ⟨OpType.received, o, h⟩).2
        · rw [if_pos hr, if_pos hr]
        · rw [if_neg hr, if_neg hr]
          exact ih _

theorem processVins_filter (h : Int) (is : List TxOut) :
    ∀ st : BalanceProcessor,
      BalanceProcessor.processVins h st (is.filter keepVin)
        = BalanceProcessor.processVins h st is := by
  induction is with
  | nil => intro st; rfl
  | cons i rest ih =>
    intro st
    by_cases hk : keepVin i = false
    · rw [List.filter_cons_of_neg (by simp [hk])]
      rw [ih]
      conv_rhs => rw [show BalanceProcessor.processVins h st (i :: rest)
        = BalanceProcessor.processVins h st rest by
          simp only [BalanceProcessor.processVins]
          rw [if_pos hk]]
    · rw [List.filter_cons_of_pos (by
        cases hkk : keepVin i
        · exact absurd hkk hk
        · rfl)]
      simp only [BalanceProcessor.processVins]
      rw [if_neg hk, if_neg hk]
      cases ha : i.addr with
      | none => exact ih st
      | some a =>
        dsimp only
        by_cases hr : (st.addRecord a ⟨OpType.spent, i, h⟩).2
        · rw [if_pos hr, if_pos hr]
        · rw [if_neg hr, if_neg hr]
          exact ih _

/-- The output-then-input processing chain of `add_block`, compared at two
states with equal database and records: the results agree on database,
records and flag. -/
theorem chain_congr (h : Int) (os is : List TxOut)
    (s t : BalanceProcessor) (hdb : s.db = t.db)
    (hrec : s.address_records = t.address_records) :
    ((if (BalanceProcessor.processVouts h s os).2
        then BalanceProcessor.processVouts h s os
        else BalanceProcessor.processVins h
          (BalanceProcessor.processVouts h s os).1 is).1.db
      = (if (BalanceProcessor.processVouts h t os).2
        then BalanceProcessor.processVouts h t os
        else BalanceProcessor.processVins h
          (BalanceProcessor.processVouts h t os).1 is).1.db)
    ∧ ((if (BalanceProcessor.processVouts h s os).2
        then BalanceProcessor.processVouts h s os
        else BalanceProcessor.processVins h
          (BalanceProcessor.processVouts h s os).1 is).1.address_records
      = (if (BalanceProcessor.processVouts h t os).2
        then BalanceProcessor.processVouts h t os
        else BalanceProcessor.processVins h
          (BalanceProcessor.processVouts h t os).1 is).1.address_records)
    ∧ ((if (BalanceProcessor.processVouts h s os).2
        then BalanceProcessor.processVouts h s os
        else BalanceProcessor.processVins h
          (BalanceProcessor.processVouts h s os).1 is).2
      = (if (BalanceProcessor.processVouts h t os).2
        then BalanceProcessor.processVouts h t os
        else BalanceProcessor.processVins h
          (BalanceProcessor.processVouts h t os).1 is).2) := by
  obtain ⟨d1, r1, f1⟩ := processVouts_congr h os s t hdb hrec
  rw [f1]
  by_cases hf : (BalanceProcessor.processVouts h t os).2
  · rw [if_pos hf, if_pos hf]
    exact ⟨d1, r1, f1⟩
  · rw [if_neg hf, if_neg hf]
    exact processVins_congr h is _ _ d1 r1

end SrcBalance

namespace BlockFactory

theorem transactionInputs_filter_aux
    (resolve : String → Nat → Option TxOut) (vin : List Prevout) :
    ∀ acc : List TxOut,
      (vin.filter (fun p => decide (p.hash ≠ COINBASE_TX))).foldl
        (fun acc p =>
          if p.hash = COINBASE_TX then acc
          else
            match resolve p.hash p.n with
            | some txout => acc ++ [txout]
            | none => acc) acc
      = vin.foldl
        (fun acc p =>
          if p.hash = COINBASE_TX then acc
          else
            match resolve p.hash p.n with
            | some txout => acc ++ [txout]
            | none => acc) acc := by
  induction vin with
  | nil => intro acc; rfl
  | cons p rest ih =>
    intro acc
    by_cases hp : p.hash = COINBASE_TX
    · rw [List.filter_cons_of_neg (by simp [hp])]
      rw [ih]
      conv_rhs => rw [List.foldl_cons]
      rw [if_pos hp]
    · rw [List.filter_cons_of_pos (by simp [hp])]
      rw [List.foldl_cons, List.foldl_cons]
      rw [ih]

end BlockFactory

/-- C9: processing a block gives null elements no effect — `add_block` on
a block with its zero-value or address-less outputs and its address-less
or coinbase-sentinel inputs removed produces the same database balances,
the same per-address records and the same success flag as the original
block (only the block stored in the ring differs); and the block factory
skips coinbase prevout references when resolving inputs, so removing them
leaves the resolved input list unchanged. -/
theorem null_contributions :
    (∀ (st : SrcBalance.BalanceProcessor) (b : Block),
      (st.add_block (SrcBalance.stripNulls b)).1.db = (st.add_block b).1.db
      ∧ (st.add_block (SrcBalance.stripNulls b)).1.address_records
          = (st.add_block b).1.address_records
      ∧ (st.add_block (SrcBalance.stripNulls b)).2 = (st.add_block b).2)
    ∧ (∀ (resolve : String → Nat → Option TxOut) (vin : List Prevout),
      BlockFactory.transactionInputs resolve
          (vin.filter (fun p => decide (p.hash ≠ BlockFactory.COINBASE_TX)))
        = BlockFactory.transactionInputs resolve vin) := by
  constructor
  · intro st b
    unfold SrcBalance.BalanceProcessor.add_block
    dsimp only [SrcBalance.stripNulls]
    rw [SrcBalance.processVouts_filter, SrcBalance.processVins_filter]
    exact SrcBalance.chain_congr b.height b.vout b.vin _ _ rfl rfl
  · intro resolve vin
    unfold BlockFactory.transactionInputs
    exact BlockFactory.transactionInputs_filter_aux resolve vin []

/-- C10: the address validator is total — every input yields a boolean —
and returns `True` exactly on strings whose length lies strictly between
25 and 36 and which decode as base-58 check data with a recognized version
byte; every other input, including non-strings and strings whose decoding
raises, yields `False`. -/
theorem address_validation_total :
    ∀ (decode : String → Option CBase58Data) (v : PyValue) (t : Bool),
      is_valid_bitcoin_address decode v t = true ↔
        ∃ s, v = PyValue.str s ∧ 25 < s.length ∧ s.length < 36 ∧
          ∃ d, decode s = some d ∧ d.nVersion ∈ BITCOIN_VERSION_BYTES := by
  intro decode v t
  cases v with
  | other => simp [is_valid_bitcoin_address]
  | str s =>
    simp only [is_valid_bitcoin_address]
    by_cases hlen : 25 < s.length ∧ s.length < 36
    · rw [if_pos hlen]
      cases hd : decode s with
      | none => simp [hd]
      | some d => simp [hd, hlen.1, hlen.2]
    · rw [if_neg hlen]
      constructor
      · intro h
        simp at h
      · rintro ⟨s', hs', h1, h2, _⟩
        injection hs' with hs'
        subst hs'
        exact absurd ⟨h1, h2⟩ hlen

namespace AMap

theorem lkD_bumpFoldNeg {m : List (Addr × Int)} (ds : List (Addr × Int))
    (h : NK m) (x : Addr) :
    lkD (ds.foldl (fun acc p => bump acc p.1 (-p.2)) m) x 0
      = lkD m x 0 - sumFor ds x := by
  induction ds generalizing m with
  | nil => simp [sumFor]
  | cons p t ih =>
    simp only [List.foldl_cons, sumFor]
    rw [ih (NK_bump h), lkD_bump h x]
    by_cases hx : x = p.1
    · rw [if_pos hx, if_pos hx.symm]
      ring
    · rw [if_neg hx, if_neg (fun hh => hx hh.symm)]
      ring

theorem NK_bumpFoldNeg {m : List (Addr × Int)} (ds : List (Addr × Int))
    (h : NK m) : NK (ds.foldl (fun acc p => bump acc p.1 (-p.2)) m) := by
  induction ds generalizing m with
  | nil => exact h
  | cons p t ih => exact ih (NK_bump h)

end AMap

namespace BalanceProxyCache

theorem update_zero_eq (c : BalanceProxyCache) (a : Addr) {v : Int}
    (hv : v = 0) : c.update a v = c := by
  unfold update
  rw [if_pos hv]

theorem update_nonzero_eq (c : BalanceProxyCache) (a : Addr) {v : Int}
    (hv : v ≠ 0) :
    c.update a v = { c with updates := bump c.updates a v } := by
  unfold update
  rw [if_neg hv]

theorem update_frame (c : BalanceProxyCache) (a : Addr) (v : Int) :
    (c.update a v).cache = c.cache
    ∧ (c.update a v).storage = c.storage
    ∧ (c.update a v).maxCache = c.maxCache
    ∧ (c.update a v).height = c.height
    ∧ (c.update a v).trimCache = c.trimCache := by
  by_cases hv : v = 0
  · rw [update_zero_eq c a hv]
    exact ⟨rfl, rfl, rfl, rfl, rfl⟩
  · rw [update_nonzero_eq c a hv]
    exact ⟨rfl, rfl, rfl, rfl, rfl⟩

/-- Folding `cache.update` over a delta list touches only the pending
map. -/
theorem updateFold_frame (ds : List (Addr × Int)) :
    ∀ c : BalanceProxyCache,
      (ds.foldl (fun c p => BalanceProxyCache.update c p.1 p.2) c).cache
          = c.cache
      ∧ (ds.foldl (fun c p => BalanceProxyCache.update c p.1 p.2) c).storage
          = c.storage
      ∧ (ds.foldl (fun c p => BalanceProxyCache.update c p.1 p.2) c).maxCache
          = c.maxCache
      ∧ (ds.foldl (fun c p => BalanceProxyCache.update c p.1 p.2) c).height
          = c.height
      ∧ (ds.foldl (fun c p => BalanceProxyCache.update c p.1 p.2) c).trimCache
          = c.trimCache := by
  induction ds with
  | nil => exact fun c => ⟨rfl, rfl, rfl, rfl, rfl⟩
  | cons p t ih =>
    intro c
    simp only [List.foldl_cons]
    obtain ⟨h1, h2, h3, h4, h5⟩ := ih (c.update p.1 p.2)
    obtain ⟨g1, g2, g3, g4, g5⟩ := update_frame c p.1 p.2
    exact ⟨h1.trans g1, h2.trans g2, h3.trans g3, h4.trans g4, h5.trans g5⟩

/-- Folding `cache.update` over a delta list adds each address's summed
contribution to the pending map. -/
theorem updateFold_updates (ds : List (Addr × Int)) :
    ∀ c : BalanceProxyCache, NK c.updates →
      NK (ds.foldl (fun c p => BalanceProxyCache.update c p.1 p.2) c).updates
      ∧ ∀ x, lkD (ds.foldl (fun c p => BalanceProxyCache.update c p.1 p.2)
            c).updates x 0
          = lkD c.updates x 0 + sumFor ds x := by
  induction ds with
  | nil =>
    intro c h
    exact ⟨h, fun x => by simp [sumFor]⟩
  | cons p t ih =>
    intro c h
    simp only [List.foldl_cons]
    by_cases hv : p.2 = 0
    · rw [update_zero_eq c p.1 hv]
      obtain ⟨h1, h2⟩ := ih c h
      refine ⟨h1, fun x => ?_⟩
      rw [h2 x, sumFor]
      rw [hv]
      simp
    · rw [update_nonzero_eq c p.1 hv]
      obtain ⟨h1, h2⟩ :=
        ih { c with updates := bump c.updates p.1 p.2 } (NK_bump h)
      refine ⟨h1, fun x => ?_⟩
      rw [h2 x]
      dsimp only
      rw [lkD_bump h x, sumFor]
      by_cases hx : x = p.1
      · rw [if_pos hx, if_pos hx.symm]
        ring
      · rw [if_neg hx, if_neg (fun hh => hx hh.symm)]
        ring

theorem trimTrue_eq {st : BalanceProxyCache} (h : st.trimCache = true) :
    ({ st with trimCache := true } : BalanceProxyCache) = st := by
  obtain ⟨a, b, c, d, e, f⟩ := st
  have hf : f = true := h
  subst hf
  rfl

theorem loadToCache_updates (st : BalanceProxyCache) (a : Addr) :
    (st.loadToCache a).updates = st.updates := by
  unfold loadToCache
  cases lk st.cache a <;> rfl

theorem commitWithWrite_err (st : BalanceProxyCache) (h : Int)
    (hlt : h < st.height) : st.commitWithWrite h = Except.error () := by
  unfold commitWithWrite commitCore
  dsimp only
  rw [if_pos hlt]

theorem commitWithWrite_noop (st : BalanceProxyCache) (h : Int)
    (heq : h = st.height) :
    st.commitWithWrite h
      = Except.ok ({ st with trimCache := true }, none) := by
  unfold commitWithWrite commitCore
  dsimp only
  rw [if_neg (by omega), if_pos heq]

/-- `get` on a coherent cache with at least one slot returns the stored
baseline plus the pending delta. -/
theorem cache_get_formula (c : BalanceProxyCache)
    (hcoh : ∀ p ∈ c.cache, p.2 = lkD c.storage.balance p.1 0)
    (hnk : NK c.cache) (hmax : 1 ≤ c.maxCache) (a : Addr) :
    (c.get a).map Prod.fst
      = some (lkD c.storage.balance a 0 + lkD c.updates a 0) := by
  unfold get
  cases hl : lk c.cache a with
  | some v =>
    have hv : v = lkD c.storage.balance a 0 := hcoh (a, v) (lk_some_mem hl)
    rw [hv]
    rfl
  | none =>
    have hamem : a ∉ keys c.cache := lk_eq_none.mp hl
    unfold loadToCache
    rw [hl]
    dsimp only
    by_cases htrim : c.trimCache = true
      ∧ c.maxCache < (c.cache ++ [(a, lkD c.storage.balance a 0)]).length
    · rw [if_pos htrim]
      cases hc : c.cache with
      | nil =>
        exfalso
        have h2 := htrim.2
        rw [hc] at h2
        simp at h2
        omega
      | cons q cs =>
        have hacs : a ∉ keys cs := by
          intro hmem
          apply hamem
          rw [hc, show keys (q :: cs) = q.1 :: keys cs from rfl]
          exact List.mem_cons_of_mem _ hmem
        rw [show (q :: cs ++ [(a, lkD c.storage.balance a 0)]).tail
          = cs ++ [(a, lkD c.storage.balance a 0)] from rfl]
        rw [lk_append_single_self hacs]
        rfl
    · rw [if_neg htrim]
      rw [lk_append_single_self hamem]
      rfl

end BalanceProxyCache

namespace SpecModel

theorem add_block_of_lt (st : BalanceProcessor) (b : Block)
    (h : st.backtrackLimit < st.ring.length + 1)
    (old : Block) (rest : List Block) (hr : st.ring ++ [b] = old :: rest) :
    st.add_block b = ⟨rest,
      (blockDeltas old).foldl (fun m p => bump m p.1 (-p.2))
        ((blockDeltas b).foldl (fun m p => bump m p.1 p.2) st.ringDeltas),
      (blockDeltas old).foldl
        (fun c p => BalanceProxyCache.update c p.1 p.2) st.cache,
      st.backtrackLimit⟩ := by
  unfold BalanceProcessor.add_block
  dsimp only
  have hlen : st.backtrackLimit < (st.ring ++ [b]).length := by
    rw [List.length_append, List.length_singleton]
    exact h
  rw [if_pos hlen, hr]

theorem add_block_of_ge (st : BalanceProcessor) (b : Block)
    (h : ¬ st.backtrackLimit < st.ring.length + 1) :
    st.add_block b = ⟨st.ring ++ [b],
      (blockDeltas b).foldl (fun m p => bump m p.1 p.2) st.ringDeltas,
      st.cache, st.backtrackLimit⟩ := by
  unfold BalanceProcessor.add_block
  dsimp only
  have hlen : ¬ st.backtrackLimit < (st.ring ++ [b]).length := by
    rw [List.length_append, List.length_singleton]
    exact h
  rw [if_neg hlen]

theorem backtrack_nil (st : BalanceProcessor) (hr : st.ring = []) :
    st.backtrack = Except.error () := by
  unfold BalanceProcessor.backtrack
  rw [hr]
  rfl

theorem backtrack_of_concat (st : BalanceProcessor) (l : List Block)
    (b : Block) (hr : st.ring = l ++ [b]) :
    st.backtrack = Except.ok ⟨l,
      (blockDeltas b).foldl (fun m p => bump m p.1 (-p.2)) st.ringDeltas,
      st.cache, st.backtrackLimit⟩ := by
  unfold BalanceProcessor.backtrack
  rw [hr, List.getLast?_concat]
  dsimp only
  rw [List.dropLast_concat]

/-- Introduction rule for `Inv` at an explicitly built state. -/
theorem Inv_mk {r : List Block} {rd : List (Addr × Int)}
    {c : BalanceProxyCache} {w : Nat}
    (h1 : ∀ p ∈ c.cache, p.2 = lkD c.storage.balance p.1 0)
    (h2 : NK c.cache) (h3 : NK c.updates) (h4 : NK c.storage.balance)
    (h5 : NK rd)
    (h6 : ∀ a, lkD rd a 0 = (r.map (fun b => sumFor (blockDeltas b) a)).sum)
    (h7 : 1 ≤ c.maxCache) (h8 : c.trimCache = true) :
    Inv ⟨r, rd, c, w⟩ :=
  ⟨h1, h2, h3, h4, h5, h6, h7, h8⟩

/-- `add_block` preserves the invariant: the cache fold only touches the
pending map, and the mirror tracks the ring through the append and the
possible pop. -/
theorem add_block_inv {st : BalanceProcessor} (hI : Inv st) (b : Block) :
    Inv (st.add_block b) := by
  by_cases hlt : st.backtrackLimit < st.ring.length + 1
  · obtain ⟨old, rest, hr⟩ : ∃ old rest, st.ring ++ [b] = old :: rest := by
      cases hrc : st.ring ++ [b] with
      | nil => simp at hrc
      | cons o r => exact ⟨o, r, rfl⟩
    rw [add_block_of_lt st b hlt old rest hr]
    obtain ⟨hc1, hc2, hc3, hc4, hc5⟩ :=
      BalanceProxyCache.updateFold_frame (blockDeltas old) st.cache
    obtain ⟨hu1, hu2⟩ :=
      BalanceProxyCache.updateFold_updates (blockDeltas old) st.cache hI.nkU
    refine Inv_mk ?_ ?_ hu1 ?_ ?_ ?_ ?_ ?_
    · intro p hp
      rw [hc1] at hp
      rw [hc2]
      exact hI.cohC p hp
    · rw [hc1]
      exact hI.nkC
    · rw [hc2]
      exact hI.nkS
    · exact NK_bumpFoldNeg _ (NK_bumpFold _ hI.nkR)
    · intro a
      rw [lkD_bumpFoldNeg _ (NK_bumpFold _ hI.nkR) a,
        lkD_bumpFold _ hI.nkR a]
      have hm := hI.mirror a
      unfold ringSum at hm
      have hsum : ((st.ring ++ [b]).map
            (fun bl => sumFor (blockDeltas bl) a)).sum
          = ((old :: rest).map (fun bl => sumFor (blockDeltas bl) a)).sum :=
        by rw [hr]
      simp only [List.map_append, List.map_cons, List.map_nil,
        List.sum_append, List.sum_cons, List.sum_nil] at hsum
      omega
    · rw [hc3]
      exact hI.maxPos
    · rw [hc5]
      exact hI.trimOn
  · rw [add_block_of_ge st b hlt]
    refine Inv_mk hI.cohC hI.nkC hI.nkU hI.nkS (NK_bumpFold _ hI.nkR) ?_
      hI.maxPos hI.trimOn
    intro a
    rw [lkD_bumpFold _ hI.nkR a]
    have hm := hI.mirror a
    unfold ringSum at hm
    simp only [List.map_append, List.map_cons, List.map_nil,
      List.sum_append, List.sum_cons, List.sum_nil]
    omega

/-- A successful `backtrack` preserves the invariant. -/
theorem backtrack_inv {st st' : BalanceProcessor} (hI : Inv st)
    (h : st.backtrack = Except.ok st') : Inv st' := by
  rcases List.eq_nil_or_concat st.ring with hnil | ⟨l, b, hcat⟩
  · rw [backtrack_nil st hnil] at h
    exact Except.noConfusion h
  · have hcat' : st.ring = l ++ [b] := by
      rw [hcat, List.concat_eq_append]
    rw [backtrack_of_concat st l b hcat'] at h
    injection h with h
    subst h
    refine Inv_mk hI.cohC hI.nkC hI.nkU hI.nkS (NK_bumpFoldNeg _ hI.nkR) ?_
      hI.maxPos hI.trimOn
    intro a
    rw [lkD_bumpFoldNeg _ hI.nkR a]
    have hm := hI.mirror a
    unfold ringSum at hm
    rw [hcat'] at hm
    simp only [List.map_append, List.map_cons, List.map_nil,
      List.sum_append, List.sum_cons, List.sum_nil] at hm
    omega

/-- `commit` preserves the invariant along all three paths of the cache
commit: failing assert (no mutation), equal height (no-op), and an actual
flush (via the committing-`commit` description). -/
theorem commit_inv {st : BalanceProcessor} (hI : Inv st) : Inv st.commit := by
  unfold BalanceProcessor.commit BalanceProxyCache.commitState
  rcases lt_trichotomy st.height st.cache.height with hc | hc | hc
  · rw [BalanceProxyCache.commitWithWrite_err st.cache st.height hc]
    exact hI
  · rw [BalanceProxyCache.commitWithWrite_noop st.cache st.height hc]
    show Inv { st with cache := { st.cache with trimCache := true } }
    rw [BalanceProxyCache.trimTrue_eq hI.trimOn]
    exact hI
  · obtain ⟨st2, w, heq, hwh, hupd, htrim, hhgt, hmax, hsh, hins, hupd2,
      hdel, heff, hnkS, hnkC, hcoh⟩ :=
      BalanceProxyCache.commitWithWrite_spec st.cache st.height hc
        hI.nkC hI.nkU hI.nkS hI.cohC
    rw [heq]
    show Inv { st with cache := st2 }
    refine Inv_mk hcoh hnkC ?_ hnkS hI.nkR ?_ ?_ htrim
    · rw [hupd]
      exact List.nodup_nil
    · intro a
      have hm := hI.mirror a
      unfold ringSum at hm
      exact hm
    · rw [hmax]
      exact hI.maxPos

/-- Every driver step preserves the invariant. -/
theorem step_inv {st : BalanceProcessor} (hI : Inv st) (op : Op) :
    Inv (st.step op) := by
  cases op with
  | add b => exact add_block_inv hI b
  | back =>
    cases h : st.backtrack with
    | ok st' =>
      have heq : st.step Op.back = st' := by
        unfold BalanceProcessor.step
        rw [h]
      rw [heq]
      exact backtrack_inv hI h
    | error e =>
      have heq : st.step Op.back = st := by
        unfold BalanceProcessor.step
        rw [h]
      rw [heq]
      exact hI
  | commit => exact commit_inv hI

/-- Runs preserve the invariant. -/
theorem run_inv {st : BalanceProcessor} (hI : Inv st) (ops : List Op) :
    Inv (st.run ops) := by
  induction ops generalizing st with
  | nil => exact hI
  | cons op t ih => exact ih (step_inv hI op)

/-- The invariant holds initially over any store with distinct rows and a
cache of at least one slot. -/
theorem init_inv (rows : List (Addr × Int)) (hgt : Int) (maxC W : Nat)
    (hrows : NK rows) (hmax : 1 ≤ maxC) :
    Inv (BalanceProcessor.init ⟨rows, hgt⟩ maxC W) := by
  show Inv ⟨[], [], BalanceProxyCache.init ⟨rows, hgt⟩ maxC, W⟩
  refine Inv_mk ?_ ?_ ?_ hrows ?_ ?_ hmax rfl
  · intro p hp
    exact absurd hp (List.not_mem_nil p)
  · exact List.nodup_nil
  · exact List.nodup_nil
  · exact List.nodup_nil
  · intro a
    rfl

/-- `get_balance` on an invariant state observes stored baseline + pending
cache delta + ring mirror delta. -/
theorem get_balance_formula {st : BalanceProcessor} (hI : Inv st) (a : Addr) :
    (st.get_balance a).map Prod.fst
      = some (lkD st.cache.storage.balance a 0 + lkD st.cache.updates a 0
          + lkD st.ringDeltas a 0) := by
  have h := BalanceProxyCache.cache_get_formula st.cache hI.cohC hI.nkC
    hI.maxPos a
  unfold BalanceProcessor.get_balance
  cases hg : st.cache.get a with
  | none =>
    rw [hg] at h
    simp at h
  | some r =>
    rw [hg] at h
    simp only [Option.map_some'] at h
    injection h with h
    simp only [Option.map_some']
    rw [h]

/-- `add_block(B); backtrack()` restores every balance, as long as the
ring can keep `B` (backtrack limit at least 1): backtrack pops `B` back
off the tail and removes exactly its mirror deltas, and a possible
confirmation of the oldest block during `add_block` moved value from the
mirror into the pending cache without changing the observed sum. -/
theorem add_back_balance {st : BalanceProcessor} (hI : Inv st)
    (hW : 1 ≤ st.backtrackLimit) (b : Block) (a : Addr) :
    ∃ st2, (st.add_block b).backtrack = Except.ok st2
      ∧ (st2.get_balance a).map Prod.fst
        = (st.get_balance a).map Prod.fst := by
  by_cases hlt : st.backtrackLimit < st.ring.length + 1
  · cases hring : st.ring with
    | nil =>
      exfalso
      rw [hring] at hlt
      simp at hlt
      omega
    | cons q qs =>
      have hr : st.ring ++ [b] = q :: (qs ++ [b]) := by
        rw [hring]
        rfl
      have hadd := add_block_of_lt st b hlt q (qs ++ [b]) hr
      obtain ⟨hf1, hf2, hf3, hf4, hf5⟩ :=
        BalanceProxyCache.updateFold_frame (blockDeltas q) st.cache
      obtain ⟨hu1, hu2⟩ :=
        BalanceProxyCache.updateFold_updates (blockDeltas q) st.cache hI.nkU
      have hnk1 : NK ((blockDeltas b).foldl
          (fun m p => bump m p.1 p.2) st.ringDeltas) :=
        NK_bumpFold _ hI.nkR
      have hnk2 : NK ((blockDeltas q).foldl
          (fun m p => bump m p.1 (-p.2))
          ((blockDeltas b).foldl (fun m p => bump m p.1 p.2)
            st.ringDeltas)) :=
        NK_bumpFoldNeg _ hnk1
      refine ⟨⟨qs,
        (blockDeltas b).foldl (fun m p => bump m p.1 (-p.2))
          ((blockDeltas q).foldl (fun m p => bump m p.1 (-p.2))
            ((blockDeltas b).foldl (fun m p => bump m p.1 p.2)
              st.ringDeltas)),
        (blockDeltas q).foldl
          (fun c p => BalanceProxyCache.update c p.1 p.2) st.cache,
        st.backtrackLimit⟩, ?_, ?_⟩
      · rw [hadd]
        exact backtrack_of_concat _ qs b rfl
      · have hI2 : Inv ⟨qs,
            (blockDeltas b).foldl (fun m p => bump m p.1 (-p.2))
              ((blockDeltas q).foldl (fun m p => bump m p.1 (-p.2))
                ((blockDeltas b).foldl (fun m p => bump m p.1 p.2)
                  st.ringDeltas)),
            (blockDeltas q).foldl
              (fun c p => BalanceProxyCache.update c p.1 p.2) st.cache,
            st.backtrackLimit⟩ := by
          refine Inv_mk ?_ ?_ hu1 ?_ (NK_bumpFoldNeg _ hnk2) ?_ ?_ ?_
          · intro p hp
            rw [hf1] at hp
            rw [hf2]
            exact hI.cohC p hp
          · rw [hf1]
            exact hI.nkC
          · rw [hf2]
            exact hI.nkS
          · intro x
            rw [lkD_bumpFoldNeg _ hnk2 x, lkD_bumpFoldNeg _ hnk1 x,
              lkD_bumpFold _ hI.nkR x]
            have hm := hI.mirror x
            unfold ringSum at hm
            rw [hring] at hm
            simp only [List.map_cons, List.sum_cons] at hm
            omega
          · rw [hf3]
            exact hI.maxPos
          · rw [hf5]
            exact hI.trimOn
        rw [get_balance_formula hI2 a, get_balance_formula hI a]
        dsimp only
        rw [hf2, hu2 a, lkD_bumpFoldNeg _ hnk2 a, lkD_bumpFoldNeg _ hnk1 a,
          lkD_bumpFold _ hI.nkR a]
        exact congrArg some (by ring)
  · have hadd := add_block_of_ge st b hlt
    have hnk1 : NK ((blockDeltas b).foldl
        (fun m p => bump m p.1 p.2) st.ringDeltas) :=
      NK_bumpFold _ hI.nkR
    refine ⟨⟨st.ring,
      (blockDeltas b).foldl (fun m p => bump m p.1 (-p.2))
        ((blockDeltas b).foldl (fun m p => bump m p.1 p.2) st.ringDeltas),
      st.cache, st.backtrackLimit⟩, ?_, ?_⟩
    · rw [hadd]
      exact backtrack_of_concat _ st.ring b rfl
    · have hI2 : Inv ⟨st.ring,
          (blockDeltas b).foldl (fun m p => bump m p.1 (-p.2))
            ((blockDeltas b).foldl (fun m p => bump m p.1 p.2)
              st.ringDeltas),
          st.cache, st.backtrackLimit⟩ := by
        refine Inv_mk hI.cohC hI.nkC hI.nkU hI.nkS
          (NK_bumpFoldNeg _ hnk1) ?_ hI.maxPos hI.trimOn
        intro x
        rw [lkD_bumpFoldNeg _ hnk1 x, lkD_bumpFold _ hI.nkR x]
        have hm := hI.mirror x
        unfold ringSum at hm
        omega
      rw [get_balance_formula hI2 a, get_balance_formula hI a]
      dsimp only
      rw [lkD_bumpFoldNeg _ hnk1 a, lkD_bumpFold _ hI.nkR a]
      exact congrArg some (by ring)

end SpecModel

/-- C6 witness: the bound theorem applied to a concrete one-block state at
W = 1. -/
theorem ring_capacity_bound_witness :
    ((SrcBalance.BalanceProcessor.init 1).add_block
        (Block.mk "h1" 1 [] [])).1.blocks.length
      ≤ ((SrcBalance.BalanceProcessor.init 1).add_block
        (Block.mk "h1" 1 [] [])).1.backtrack_limit + 1
    ∧ ((((SrcBalance.BalanceProcessor.init 1).add_block
        (Block.mk "h1" 1 [] [])).1.add_block
        (Block.mk "h2" 2 [] [])).1.blocks.length
      ≤ ((SrcBalance.BalanceProcessor.init 1).add_block
        (Block.mk "h1" 1 [] [])).1.backtrack_limit + 1
      ∧ (((SrcBalance.BalanceProcessor.init 1).add_block
          (Block.mk "h1" 1 [] [])).1.backtrack_limit
          < ((SrcBalance.BalanceProcessor.init 1).add_block
          (Block.mk "h1" 1 [] [])).1.blocks.length →
        (((SrcBalance.BalanceProcessor.init 1).add_block
          (Block.mk "h1" 1 [] [])).1.add_block
          (Block.mk "h2" 2 [] [])).1.blocks
          = ((SrcBalance.BalanceProcessor.init 1).add_block
          (Block.mk "h1" 1 [] [])).1.blocks.tail ++ [Block.mk "h2" 2 [] []])
      ∧ (((SrcBalance.BalanceProcessor.init 1).add_block
          (Block.mk "h1" 1 [] [])).1.blocks.length
          ≤ ((SrcBalance.BalanceProcessor.init 1).add_block
          (Block.mk "h1" 1 [] [])).1.backtrack_limit →
        (((SrcBalance.BalanceProcessor.init 1).add_block
          (Block.mk "h1" 1 [] [])).1.add_block
          (Block.mk "h2" 2 [] [])).1.blocks
          = ((SrcBalance.BalanceProcessor.init 1).add_block
          (Block.mk "h1" 1 [] [])).1.blocks ++ [Block.mk "h2" 2 [] []])) :=
  ⟨by decide,
   ring_capacity_bound
     ((SrcBalance.BalanceProcessor.init 1).add_block (Block.mk "h1" 1 [] [])).1
     (Block.mk "h2" 2 [] []) (by decide)⟩

/-- C1: balance conservation — after every operation of any sequence of
`add_block`, `backtrack` and `commit` calls on the spec-modelled
storage-backed `BalanceProcessor` (started over a store with distinct rows
and a cache of at least one slot), the reported `balance(a)` of every
address equals the durable store balance of `a`, plus the pending
(uncommitted) cache delta for `a`, plus the sum of the signed deltas for
`a` carried by the blocks currently in the recent-blocks ring. -/
theorem balance_conservation (rows : List (Addr × Int)) (hgt : Int)
    (maxC W : Nat) (hrows : NK rows) (hmax : 1 ≤ maxC)
    (ops : List SpecModel.Op) (a : Addr) :
    ((((SpecModel.BalanceProcessor.init ⟨rows, hgt⟩ maxC W).run
        ops).get_balance a).map Prod.fst)
      = some (lkD ((SpecModel.BalanceProcessor.init ⟨rows, hgt⟩ maxC
            W).run ops).cache.storage.balance a 0
          + lkD ((SpecModel.BalanceProcessor.init ⟨rows, hgt⟩ maxC
            W).run ops).cache.updates a 0
          + SpecModel.ringSum ((SpecModel.BalanceProcessor.init
            ⟨rows, hgt⟩ maxC W).run ops) a) := by
  have hI := SpecModel.run_inv
    (SpecModel.init_inv rows hgt maxC W hrows hmax) ops
  rw [SpecModel.get_balance_formula hI a, hI.mirror a]

/-- C1 witness: conservation read off after the concrete three-operation
run add; commit; backtrack over a one-row store. -/
theorem balance_conservation_witness :
    NK [("X", (5 : Int))] ∧ 1 ≤ 1
    ∧ ((((SpecModel.BalanceProcessor.init ⟨[("X", 5)], 7⟩ 1 1).run
        [SpecModel.Op.add s1Block, SpecModel.Op.commit,
          SpecModel.Op.back]).get_balance "A").map Prod.fst)
      = some (lkD ((SpecModel.BalanceProcessor.init ⟨[("X", 5)], 7⟩ 1
            1).run [SpecModel.Op.add s1Block, SpecModel.Op.commit,
            SpecModel.Op.back]).cache.storage.balance "A" 0
          + lkD ((SpecModel.BalanceProcessor.init ⟨[("X", 5)], 7⟩ 1
            1).run [SpecModel.Op.add s1Block, SpecModel.Op.commit,
            SpecModel.Op.back]).cache.updates "A" 0
          + SpecModel.ringSum ((SpecModel.BalanceProcessor.init
            ⟨[("X", 5)], 7⟩ 1 1).run [SpecModel.Op.add s1Block,
            SpecModel.Op.commit, SpecModel.Op.back]) "A") :=
  ⟨by decide, by decide,
    balance_conservation [("X", 5)] 7 1 1 (by decide) (by decide)
      [SpecModel.Op.add s1Block, SpecModel.Op.commit, SpecModel.Op.back]
      "A"⟩

/-- C2: backtrack idempotence — on any invariant state whose backtrack
limit is at least 1 (so the added block is not confirmed out of the ring
by `add_block` itself), `add_block(B); backtrack()` succeeds and leaves
`balance(a)` exactly as before for every address; `backtrack` on a
non-empty ring pops the newest (tail) block and subtracts its deltas from
the mirror (pruning zeros); and `backtrack` on an empty ring fails with
the backtrack-limit error instead of changing state. -/
theorem backtrack_idempotence :
    (∀ st : SpecModel.BalanceProcessor, SpecModel.Inv st →
      1 ≤ st.backtrackLimit → ∀ (b : Block) (a : Addr),
      ∃ st2, (st.add_block b).backtrack = Except.ok st2
        ∧ (st2.get_balance a).map Prod.fst
          = (st.get_balance a).map Prod.fst)
    ∧ (∀ st : SpecModel.BalanceProcessor, st.ring = [] →
      st.backtrack = Except.error ())
    ∧ (∀ (st : SpecModel.BalanceProcessor) (l : List Block) (b : Block),
      st.ring = l ++ [b] →
      st.backtrack = Except.ok ⟨l,
        (SpecModel.blockDeltas b).foldl (fun m p => bump m p.1 (-p.2))
          st.ringDeltas,
        st.cache, st.backtrackLimit⟩) :=
  ⟨fun st hI hW b a => SpecModel.add_back_balance hI hW b a,
   SpecModel.backtrack_nil, SpecModel.backtrack_of_concat⟩

/-- C2 witness: the round trip at a concrete fresh processor (W = 1) and
block, plus the failing backtrack on the empty ring. -/
theorem backtrack_idempotence_witness :
    (∃ st2, (((SpecModel.BalanceProcessor.init ⟨[], -1⟩ 1 1).add_block
        s1Block).backtrack = Except.ok st2)
      ∧ (st2.get_balance "A").map Prod.fst
        = (((SpecModel.BalanceProcessor.init ⟨[], -1⟩ 1 1)).get_balance
          "A").map Prod.fst)
    ∧ (SpecModel.BalanceProcessor.init ⟨[], -1⟩ 1 1).backtrack
      = Except.error () :=
  ⟨backtrack_idempotence.1 (SpecModel.BalanceProcessor.init ⟨[], -1⟩ 1 1)
      (SpecModel.init_inv [] (-1) 1 1 (by decide) (by decide))
      (by decide) s1Block "A",
   backtrack_idempotence.2.1 (SpecModel.BalanceProcessor.init ⟨[], -1⟩ 1 1)
      rfl⟩

/-- C4: write-back frame effect of `add_block` — it can change only the
ring, the `pending_ring_deltas` mirror and the cache's pending-updates
map; the durable store is untouched, and so are the cached baselines, the
cache tip height, the capacity, the trim flag and the backtrack limit.
Concretely (scenario S1): from an empty ring and empty cache over an empty
store, one block at height 100 whose sole output credits `A` with 133
yields `balance(A) = 133` and `height = 100` while the store still has no
row for `A`. -/
theorem add_block_frame :
    (∀ (st : SpecModel.BalanceProcessor) (b : Block),
      (st.add_block b).cache.storage = st.cache.storage
      ∧ (st.add_block b).cache.cache = st.cache.cache
      ∧ (st.add_block b).cache.maxCache = st.cache.maxCache
      ∧ (st.add_block b).cache.height = st.cache.height
      ∧ (st.add_block b).cache.trimCache = st.cache.trimCache
      ∧ (st.add_block b).backtrackLimit = st.backtrackLimit)
    ∧ ((((SpecModel.BalanceProcessor.init MemoryBalanceStorage.init 1000
        100).add_block s1Block).get_balance "A").map Prod.fst = some 133
      ∧ ((SpecModel.BalanceProcessor.init MemoryBalanceStorage.init 1000
        100).add_block s1Block).height = 100
      ∧ lk ((SpecModel.BalanceProcessor.init MemoryBalanceStorage.init
        1000 100).add_block s1Block).cache.storage.balance "A"
        = none) := by
  constructor
  · intro st b
    by_cases hlt : st.backtrackLimit < st.ring.length + 1
    · obtain ⟨old, rest, hr⟩ : ∃ old rest, st.ring ++ [b] = old :: rest := by
        cases hrc : st.ring ++ [b] with
        | nil => simp at hrc
        | cons o r => exact ⟨o, r, rfl⟩
      rw [SpecModel.add_block_of_lt st b hlt old rest hr]
      obtain ⟨h1, h2, h3, h4, h5⟩ :=
        BalanceProxyCache.updateFold_frame (SpecModel.blockDeltas old)
          st.cache
      exact ⟨h2, h1, h3, h4, h5, rfl⟩
    · rw [SpecModel.add_block_of_ge st b hlt]
      exact ⟨rfl, rfl, rfl, rfl, rfl, rfl⟩
  · exact ⟨by decide, by decide, by decide⟩

end BitBalance
